import Mathlib

/-!
# Passes of `llvm-tutor`

Shallow embeddings of three passes and the properties proved of them: the analysis
`RIV::buildRIV` (namespace `RIV`), `DeadCodeElimination::runOnFunction` (namespace `DCE`)
and `InjectFuncCall::runOnModule` (namespace `InjectFuncCall`). The definitions of all
three come first, the theorems follow. The fourth pass of the repository,
`src/lib/OpcodeCounter2.cpp`, is not embedded: the file is ill-formed C++ (line 29 names
the member function `getOpcodeName` without calling it), so it denotes no program.

## Reachable Integer Values (`src/lib/RIV.cpp`)

A shallow embedding of `RIV::buildRIV` and of the part of the LLVM IR it reads,
followed by the properties of the analysis result.

* IR objects (`GlobalVariable`, `Argument`, `Instruction`, `BasicBlock`) are records with
  an identifier; a pointer to an object is modelled by the object itself, so pointer
  equality is equality of records.
* `llvm::Value *` is the sum of the three kinds of value the pass ever inserts.
* `llvm::SmallPtrSet<Value *, 8>` is a `Finset Value` (its iteration order is unspecified).
* `llvm::MapVector<BasicBlock const *, SmallPtrSet<...>>` is an association list that keeps
  the keys in insertion order.
* `DomTreeNodeBase<BasicBlock> *` is a finitely branching tree; every node carries its
  block and the ordered list of its children. A node is therefore the child of at most
  one node and never its own descendant; that no block belongs to two nodes is not part of
  the type and is stated where it is needed.
* a `Function` always has an entry block: `getEntryBlock` is only defined for a function
  with a body, and the pass only runs on such functions.
* the deque `BBsToProcess` is a list whose last element is the back of the deque.
* the `while` loop over the deque takes a step budget and yields `none` when the budget
  is used up before the deque is empty.
-/

namespace RIV

/-! ## The IR read by the pass -/

/-- The type of an IR value, as far as `Type::isIntegerTy` can tell kinds apart. -/
inductive Ty where
  | integer (bits : Nat)
  | floatingPoint
  | pointer
  | void
  | label
  | aggregate
  deriving DecidableEq

/-- `Type::isIntegerTy()`: true exactly for `iN` (booleans are `i1`). -/
def Ty.isIntegerTy : Ty → Bool
  | .integer _ => true
  | _ => false

/-- A module-level global variable; `valueType` is what `getValueType()` returns. -/
structure GlobalVariable where
  id : Nat
  valueType : Ty
  deriving DecidableEq

/-- A formal parameter of a function; `type` is what `getType()` returns. -/
structure Argument where
  id : Nat
  type : Ty
  deriving DecidableEq

/-- An instruction; `type` is what `getType()` returns. -/
structure Instruction where
  id : Nat
  type : Ty
  deriving DecidableEq

/-- What a `llvm::Value *` stored by the pass can point to. -/
inductive Value where
  | global (g : GlobalVariable)
  | argument (a : Argument)
  | instruction (i : Instruction)
  deriving DecidableEq

/-- A basic block: an identity and the ordered list of its instructions. -/
structure BasicBlock where
  id : Nat
  insts : List Instruction
  deriving DecidableEq

/-- A function with a body: its entry block, its other blocks in layout order, its
arguments, and the globals of the module that contains it (`F.getParent()->globals()`). -/
structure Function where
  entryBlock : BasicBlock
  otherBlocks : List BasicBlock
  args : List Argument
  globals : List GlobalVariable

/-- The blocks visited by `for (BasicBlock &BB : F)`. -/
def Function.blocks (F : Function) : List BasicBlock :=
  F.entryBlock :: F.otherBlocks

/-- `F.getEntryBlock()`. -/
def Function.getEntryBlock (F : Function) : BasicBlock :=
  F.entryBlock

/-- A node of the dominator tree (`DomTreeNodeBase<BasicBlock>`). -/
inductive DomTreeNode where
  | mk (block : BasicBlock) (children : List DomTreeNode)

namespace DomTreeNode

/-- `Node->getBlock()`. -/
def getBlock : DomTreeNode → BasicBlock
  | mk b _ => b

/-- The children iterated by `for (NodeTy Child : *Node)`. -/
def children : DomTreeNode → List DomTreeNode
  | mk _ cs => cs

mutual
/-- All nodes of the subtree rooted at a node, the node itself first. -/
def nodes : DomTreeNode → List DomTreeNode
  | mk b cs => mk b cs :: nodesList cs
/-- All nodes of the subtrees rooted at the nodes of a list. -/
def nodesList : List DomTreeNode → List DomTreeNode
  | [] => []
  | c :: cs => nodes c ++ nodesList cs
end

/-- The blocks of all nodes of a forest. -/
def blocksOf (ws : List DomTreeNode) : List BasicBlock :=
  (nodesList ws).map getBlock

end DomTreeNode

/-! ## Containers -/

/-- `llvm::SmallPtrSet<llvm::Value *, 8>`. -/
abbrev ValueSet := Finset Value

/-- `RIV::Result`, a `MapVector` from blocks to sets of values, in insertion order. -/
abbrev Result := List (BasicBlock × ValueSet)

/-- The type of `DefinedValuesMap`. -/
abbrev DefValMapTy := Result

namespace Result

/-- Point lookup (`find`): `none` when the block is not a key. -/
def find : Result → BasicBlock → Option ValueSet
  | [], _ => none
  | (k, s) :: m, b => if k = b then some s else find m b

/-- The map after `M[b]` has been evaluated: a key that is absent is appended with an
empty set. -/
def subscript (m : Result) (b : BasicBlock) : Result :=
  match find m b with
  | some _ => m
  | none => m ++ [(b, ∅)]

/-- The set that `M[b]` refers to. -/
def get (m : Result) (b : BasicBlock) : ValueSet :=
  (find m b).getD ∅

/-- Overwrite the set stored for an existing key. -/
def set : Result → BasicBlock → ValueSet → Result
  | [], _, _ => []
  | (k, s) :: m, b, s' => if k = b then (k, s') :: m else (k, s) :: set m b s'

/-- The statement `M[b].insert(vs.begin(), vs.end())`. -/
def insertRange (m : Result) (b : BasicBlock) (vs : ValueSet) : Result :=
  set (subscript m b) b (get m b ∪ vs)

/-- The statement `M[b].insert(v)`. -/
def insertValue (m : Result) (b : BasicBlock) (v : Value) : Result :=
  set (subscript m b) b (insert v (get m b))

/-- The keys, in insertion order. -/
def keys (m : Result) : List BasicBlock :=
  m.map Prod.fst

end Result

/-! ## `RIV::buildRIV` -/

/-- The inner loop of STEP 1 over the instructions of `BB`. -/
def collectInsts (BB : BasicBlock) : List Instruction → DefValMapTy → DefValMapTy
  | [], DefinedValuesMap => DefinedValuesMap
  | Inst :: rest, DefinedValuesMap =>
    if Inst.type.isIntegerTy then
      collectInsts BB rest (Result.insertValue DefinedValuesMap BB (.instruction Inst))
    else
      collectInsts BB rest DefinedValuesMap

/-- STEP 1: for every basic block compute the set of integer values defined in it. -/
def collectDefs : List BasicBlock → DefValMapTy → DefValMapTy
  | [], DefinedValuesMap => DefinedValuesMap
  | BB :: rest, DefinedValuesMap =>
    collectDefs rest (collectInsts BB BB.insts (Result.subscript DefinedValuesMap BB))

/-- STEP 2, first loop: the globals whose value type is an integer type. -/
def seedGlobals (EntryBB : BasicBlock) : List GlobalVariable → Result → Result
  | [], ResultMap => ResultMap
  | Global :: rest, ResultMap =>
    if Global.valueType.isIntegerTy then
      seedGlobals EntryBB rest (Result.insertValue ResultMap EntryBB (.global Global))
    else
      seedGlobals EntryBB rest ResultMap

/-- STEP 2, second loop: the arguments of integer type. -/
def seedArgs (EntryBB : BasicBlock) : List Argument → Result → Result
  | [], ResultMap => ResultMap
  | Arg :: rest, ResultMap =>
    if Arg.type.isIntegerTy then
      seedArgs EntryBB rest (Result.insertValue ResultMap EntryBB (.argument Arg))
    else
      seedArgs EntryBB rest ResultMap

/-- The loop over the children of `Parent` inside STEP 3: every child is pushed on the
back of the deque and receives the parent's definitions and the parent's RIV set. -/
def updateChildren (ParentDefs ParentRIVs : ValueSet) :
    List DomTreeNode → List DomTreeNode × Result → List DomTreeNode × Result
  | [], s => s
  | Child :: rest, (BBsToProcess, ResultMap) =>
    updateChildren ParentDefs ParentRIVs rest
      (BBsToProcess ++ [Child],
        Result.insertRange (Result.insertRange ResultMap Child.getBlock ParentDefs)
          Child.getBlock ParentRIVs)

/-- The variables that the `while` loop of STEP 3 reads and writes. -/
structure LoopState where
  BBsToProcess : List DomTreeNode
  DefinedValuesMap : DefValMapTy
  ResultMap : Result

/-- One iteration of the `while` loop, `Parent` being the back of the deque and `rest`
what is left after `pop_back`. -/
def loopBody (Parent : DomTreeNode) (rest : List DomTreeNode) (DefinedValuesMap : DefValMapTy)
    (ResultMap : Result) : LoopState :=
  let DefinedValuesMap1 := Result.subscript DefinedValuesMap Parent.getBlock
  let ParentDefs := Result.get DefinedValuesMap Parent.getBlock
  let ResultMap1 := Result.subscript ResultMap Parent.getBlock
  let ParentRIVs := Result.get ResultMap Parent.getBlock
  let r := updateChildren ParentDefs ParentRIVs Parent.children (rest, ResultMap1)
  ⟨r.1, DefinedValuesMap1, r.2⟩

/-- STEP 3: `while (!BBsToProcess.empty())`, run for at most `fuel` iterations. -/
def loop : Nat → LoopState → Option Result
  | _, ⟨[], _, ResultMap⟩ => some ResultMap
  | 0, ⟨_ :: _, _, _⟩ => none
  | fuel + 1, ⟨n :: ns, DefinedValuesMap, ResultMap⟩ =>
    loop fuel
      (loopBody ((n :: ns).getLast (List.cons_ne_nil n ns)) (n :: ns).dropLast
        DefinedValuesMap ResultMap)

/-- `RIV::buildRIV(F, CFGRoot)`, the loop of STEP 3 being given `fuel` iterations. -/
def buildRIV (fuel : Nat) (F : Function) (CFGRoot : DomTreeNode) : Option Result :=
  let BBsToProcess : List DomTreeNode := [CFGRoot]
  let DefinedValuesMap := collectDefs F.blocks []
  let ResultMap := Result.subscript [] F.getEntryBlock
  let ResultMap := seedGlobals F.getEntryBlock F.globals ResultMap
  let ResultMap := seedArgs F.getEntryBlock F.args ResultMap
  loop fuel ⟨BBsToProcess, DefinedValuesMap, ResultMap⟩

/-! ## Specification-level sets -/

/-- The integer-typed instructions of a block, as a set of values (`v_N` of the file
header). -/
def definedIn (BB : BasicBlock) : ValueSet :=
  ((BB.insts.filter (fun I => I.type.isIntegerTy)).map Value.instruction).toFinset

/-- The globals of integer value type and the arguments of integer type (`RIV_0` of the
file header). -/
def seed (F : Function) : ValueSet :=
  ((F.globals.filter (fun G => G.valueType.isIntegerTy)).map Value.global).toFinset ∪
    ((F.args.filter (fun A => A.type.isIntegerTy)).map Value.argument).toFinset

/-! ## Concrete inputs -/

/-- The comparison `c` computed by the entry block of the diamond. -/
def diamondC : Instruction := ⟨1, .integer 1⟩

/-- The integer value `y` defined by the left arm of the diamond. -/
def diamondY : Instruction := ⟨2, .integer 32⟩

/-- The integer value `z` defined by the right arm of the diamond. -/
def diamondZ : Instruction := ⟨3, .integer 32⟩

/-- A terminator, which produces no value. -/
def diamondBr : Instruction := ⟨4, .void⟩

/-- Entry block of the diamond: compares and branches. -/
def diamondB0 : BasicBlock := ⟨0, [diamondC, diamondBr]⟩

/-- Left arm of the diamond. -/
def diamondB1 : BasicBlock := ⟨1, [diamondY]⟩

/-- Right arm of the diamond. -/
def diamondB2 : BasicBlock := ⟨2, [diamondZ]⟩

/-- Join block of the diamond. -/
def diamondB3 : BasicBlock := ⟨3, []⟩

/-- A block that no path from the entry reaches. -/
def diamondDead : BasicBlock := ⟨4, [⟨5, .integer 32⟩]⟩

/-- A function with a diamond-shaped control flow and one dead block; it has an integer
and a floating-point argument, and its module has an integer and a pointer global. -/
def diamondF : Function :=
  ⟨diamondB0, [diamondB1, diamondB2, diamondB3, diamondDead],
    [⟨10, .integer 32⟩, ⟨11, .floatingPoint⟩], [⟨20, .integer 8⟩, ⟨21, .pointer⟩]⟩

/-- The dominator tree of `diamondF`: the entry block is the parent of the two arms and of
the join block; the dead block has no node. -/
def diamondTree : DomTreeNode :=
  .mk diamondB0 [.mk diamondB1 [], .mk diamondB2 [], .mk diamondB3 []]

/-- A function with a single empty block, two integer parameters and no globals. -/
def singleF : Function := ⟨⟨0, []⟩, [], [⟨1, .integer 32⟩, ⟨2, .integer 64⟩], []⟩

/-- The dominator tree of `singleF`. -/
def singleTree : DomTreeNode := .mk ⟨0, []⟩ []

/-! ## Variants of the traversal and its trace -/

/-- The loop of STEP 3 with the deque used as a queue: the node is taken from the front
(`front` / `pop_front`) instead of the back, which makes the traversal breadth-first. The
body of the loop is the one of the source. -/
def loopFIFO : Nat → LoopState → Option Result
  | _, ⟨[], _, ResultMap⟩ => some ResultMap
  | 0, ⟨_ :: _, _, _⟩ => none
  | fuel + 1, ⟨n :: ns, DefinedValuesMap, ResultMap⟩ =>
    loopFIFO fuel (loopBody n ns DefinedValuesMap ResultMap)

/-- The analysis `buildRIV` with the breadth-first loop `loopFIFO` in the place of
`loop`. -/
def buildRIVFIFO (fuel : Nat) (F : Function) (CFGRoot : DomTreeNode) : Option Result :=
  let BBsToProcess : List DomTreeNode := [CFGRoot]
  let DefinedValuesMap := collectDefs F.blocks []
  let ResultMap := Result.subscript [] F.getEntryBlock
  let ResultMap := seedGlobals F.getEntryBlock F.globals ResultMap
  let ResultMap := seedArgs F.getEntryBlock F.args ResultMap
  loopFIFO fuel ⟨BBsToProcess, DefinedValuesMap, ResultMap⟩

/-- The second tree is the first one with the list of children of one node permuted. -/
inductive ChildrenPermuted : DomTreeNode → DomTreeNode → Prop where
  | atNode (b : BasicBlock) (cs cs' : List DomTreeNode) (h : List.Perm cs cs') :
      ChildrenPermuted (.mk b cs) (.mk b cs')
  | inChild (b : BasicBlock) (pre post : List DomTreeNode) (c c' : DomTreeNode)
      (h : ChildrenPermuted c c') :
      ChildrenPermuted (.mk b (pre ++ c :: post)) (.mk b (pre ++ c' :: post))

/-- The loop of STEP 3 with a record of what it does: beside the final map it returns, in
the order of the iterations, the node popped by each iteration together with the copy
`ParentRIVs` that the iteration takes of the set of that node. -/
def loopTrace : Nat → LoopState → Option (List (DomTreeNode × ValueSet) × Result)
  | _, ⟨[], _, ResultMap⟩ => some ([], ResultMap)
  | 0, ⟨_ :: _, _, _⟩ => none
  | fuel + 1, ⟨n :: ns, DefinedValuesMap, ResultMap⟩ =>
    let Parent := (n :: ns).getLast (List.cons_ne_nil n ns)
    let ParentRIVs := Result.get ResultMap Parent.getBlock
    match loopTrace fuel (loopBody Parent (n :: ns).dropLast DefinedValuesMap ResultMap) with
    | none => none
    | some (pops, Rfin) => some ((Parent, ParentRIVs) :: pops, Rfin)

/-- The trace of `buildRIV`: the initialisation of `buildRIV` followed by `loopTrace`. -/
def buildRIVTrace (fuel : Nat) (F : Function) (CFGRoot : DomTreeNode) :
    Option (List (DomTreeNode × ValueSet) × Result) :=
  let BBsToProcess : List DomTreeNode := [CFGRoot]
  let DefinedValuesMap := collectDefs F.blocks []
  let ResultMap := Result.subscript [] F.getEntryBlock
  let ResultMap := seedGlobals F.getEntryBlock F.globals ResultMap
  let ResultMap := seedArgs F.getEntryBlock F.args ResultMap
  loopTrace fuel ⟨BBsToProcess, DefinedValuesMap, ResultMap⟩

/-- The relation between a state of the loop of STEP 3 and the final map that the
traversal maintains whatever node it takes next: if the map of definitions agrees with
`d`, no block occurs twice among the nodes still to be visited and the blocks strictly
below the deque are not yet keys, then every other set is left as it is and every child
gets the set of its parent together with the definitions of its parent. -/
def EquationsInv (d : BasicBlock → ValueSet) (s : LoopState) (Rfin : Result) : Prop :=
  (∀ b, Result.get s.DefinedValuesMap b = d b) →
  (DomTreeNode.blocksOf s.BBsToProcess).Nodup →
  (∀ u ∈ s.BBsToProcess, ∀ b ∈ DomTreeNode.blocksOf u.children,
    Result.find s.ResultMap b = none) →
  (∀ b, (∀ u ∈ s.BBsToProcess, b ∉ DomTreeNode.blocksOf u.children) →
    Result.get Rfin b = Result.get s.ResultMap b) ∧
  (∀ P ∈ DomTreeNode.nodesList s.BBsToProcess, ∀ C ∈ P.children,
    Result.get Rfin C.getBlock = Result.get Rfin P.getBlock ∪ d P.getBlock)

/-- The diamond tree with the children of the root in another order. -/
def diamondTreePermuted : DomTreeNode :=
  .mk diamondB0 [.mk diamondB3 [], .mk diamondB1 [], .mk diamondB2 []]

/-- The pair `(p, c)` is an edge of the tree: `p` is the block of a node of the tree and
`c` the block of one of the children of that node. -/
def IsEdge (root : DomTreeNode) (p c : BasicBlock) : Prop :=
  ∃ P ∈ DomTreeNode.nodes root, ∃ C ∈ P.children, P.getBlock = p ∧ C.getBlock = c

end RIV

/-! # Dead code elimination (`src/lib/DeadCodeElimination.cpp`)

An `Instruction *` is an address. What the pass asks of an instruction
(`isDebugOrPseudoInst`, `isSafeToRemove`, `operands`) is answered by LLVM, not by this
repository, and is taken as part of the function that the pass receives.
`SmallPtrSet<Instruction *, 32>` is a `Finset`, `SmallVector<Instruction *, 128>` a list
whose last element is its back. -/

namespace DCE

/-- What a `Use` refers to, as far as `dyn_cast<Instruction>` tells: an instruction, by
address, or something else (a constant, an argument, a basic block). -/
inductive Operand where
  | inst (I : Nat)
  | other
  deriving DecidableEq

/-- A function as the pass reads it: `insts` is the sequence `instructions(F)`, the other
fields answer the queries of the pass on an instruction. -/
structure Function where
  insts : List Nat
  isDebugOrPseudoInst : Nat → Bool
  isSafeToRemove : Nat → Bool
  operands : Nat → List Operand

/-- The variables `Alive` and `Worklist`. -/
structure LiveState where
  Alive : Finset Nat
  Worklist : List Nat

/-- First loop: collect the root instructions. -/
def collectRoots (F : Function) : List Nat → LiveState → LiveState
  | [], s => s
  | I :: rest, s =>
    if F.isDebugOrPseudoInst I || !F.isSafeToRemove I then
      collectRoots F rest ⟨insert I s.Alive, s.Worklist ++ [I]⟩
    else
      collectRoots F rest s

/-- The loop over the operands of `LiveInst`: an operand that is an instruction and is
newly inserted into `Alive` is pushed on the worklist. -/
def visitOperands : List Operand → LiveState → LiveState
  | [], s => s
  | .inst Inst :: rest, s =>
    if Inst ∈ s.Alive then visitOperands rest s
    else visitOperands rest ⟨insert Inst s.Alive, s.Worklist ++ [Inst]⟩
  | .other :: rest, s => visitOperands rest s

/-- Second loop: `while (!Worklist.empty())`, run for at most `fuel` iterations. -/
def propagate (F : Function) : Nat → LiveState → Option LiveState
  | _, ⟨Alive, []⟩ => some ⟨Alive, []⟩
  | 0, ⟨_, _ :: _⟩ => none
  | fuel + 1, ⟨Alive, n :: ns⟩ =>
    let LiveInst := (n :: ns).getLast (List.cons_ne_nil n ns)
    propagate F fuel (visitOperands (F.operands LiveInst) ⟨Alive, (n :: ns).dropLast⟩)

/-- The live set: the first two loops of `runOnFunction`. -/
def computeAlive (fuel : Nat) (F : Function) : Option LiveState :=
  propagate F fuel (collectRoots F F.insts ⟨∅, []⟩)

/-- Third loop: every instruction for which `Alive.count(&I)` holds is pushed on the
worklist and drops its references (its operands are cleared). -/
def collectErased (Alive : Finset Nat) :
    List Nat → List Nat × (Nat → List Operand) → List Nat × (Nat → List Operand)
  | [], s => s
  | I :: rest, (Worklist, operands) =>
    if I ∈ Alive then
      collectErased Alive rest (Worklist ++ [I], fun J => if J = I then [] else operands J)
    else
      collectErased Alive rest (Worklist, operands)

/-- Fourth loop: `I->eraseFromParent()` for every instruction of the worklist. -/
def eraseAll : List Nat → List Nat → List Nat
  | [], insts => insts
  | I :: rest, insts => eraseAll rest (insts.erase I)

/-- `DeadCodeElimination::runOnFunction(F)`: the function after the pass and the returned
flag, the second loop being given `fuel` iterations. -/
def runOnFunction (fuel : Nat) (F : Function) : Option (Function × Bool) :=
  match computeAlive fuel F with
  | none => none
  | some s =>
    let r := collectErased s.Alive F.insts (s.Worklist, F.operands)
    some (⟨eraseAll r.1 F.insts, F.isDebugOrPseudoInst, F.isSafeToRemove, r.2⟩, !r.1.isEmpty)

/-- The instructions that the first loop makes live: the debug or pseudo instructions and
the instructions that are not safe to remove. -/
def IsRoot (F : Function) (I : Nat) : Prop :=
  I ∈ F.insts ∧ (F.isDebugOrPseudoInst I = true ∨ F.isSafeToRemove I = false)

/-- A set of instructions is closed when it holds every operand that is an instruction of
every instruction it holds. -/
def Closed (F : Function) (S : Finset Nat) : Prop :=
  ∀ I ∈ S, ∀ J, Operand.inst J ∈ F.operands I → J ∈ S

/-- A function of three instructions: `0` is `%x = add i32 %a, 1`, not used by anything;
`1` is `%y = mul i32 %a, 2`; `2` is `ret i32 %y`, a terminator, which is not safe to
remove. -/
def exampleF : Function where
  insts := [0, 1, 2]
  isDebugOrPseudoInst := fun _ => false
  isSafeToRemove := fun I => decide (I ≠ 2)
  operands := fun I => if I = 2 then [.inst 1] else [.other, .other]

end DCE

/-! # Injection of calls to `printf` (`src/lib/InjectFuncCall.cpp`, `InjectFuncCall2.cpp`)

The two source files hold the same `InjectFuncCall::runOnModule` up to the text of the
format string, which is a parameter here. A module is the list of its functions and the
list of its global variables; a function is its name, the number of its arguments and the
list of its blocks, a declaration being a function without blocks. What the pass asks of
LLVM (`getOrInsertFunction`, `getOrInsertGlobal`, `getFirstInsertionPt`, the `IRBuilder`)
is modelled after the documentation of LLVM: the builder folds the cast of the constant
`PrintfFormatStrVar` and the pointer to the global string into constants, so that the call
is the only instruction it inserts. A symbol named `printf` is taken to be a function and a
symbol named `PrintfFormatStr` a global variable. -/

namespace InjectFuncCall

/-- The values the pass passes to `printf`, beside the values already in the module. -/
inductive Value where
  | formatStrPtr
  | globalStringPtr (s : String)
  | int32 (n : Nat)
  | other (id : Nat)
  deriving DecidableEq

/-- An instruction, as far as the pass and `getFirstInsertionPt` tell instructions
apart. -/
inductive Instruction where
  | phi (id : Nat)
  | ehPad (id : Nat)
  | call (callee : String) (args : List Value)
  | other (id : Nat)
  deriving DecidableEq

/-- `isa<PHINode>(I)`. -/
def Instruction.isPHI : Instruction → Bool
  | .phi _ => true
  | _ => false

/-- `I.isEHPad()`. -/
def Instruction.isEHPad : Instruction → Bool
  | .ehPad _ => true
  | _ => false

/-- A basic block: the sequence of its instructions. -/
abbrev BasicBlock := List Instruction

/-- A function of the module; `argSize` is `F.arg_size()`, and the first block is the
entry block. -/
structure Function where
  name : String
  argSize : Nat
  blocks : List BasicBlock
  deriving DecidableEq

/-- `F.isDeclaration()`. -/
def Function.isDeclaration (F : Function) : Bool :=
  F.blocks.isEmpty

/-- A global variable: its name and its initializer, when it has one. -/
structure GlobalVariable where
  name : String
  initializer : Option String
  deriving DecidableEq

/-- A module. -/
structure Module where
  functions : List Function
  globals : List GlobalVariable
  deriving DecidableEq

/-- `BasicBlock::getFirstInsertionPt()`, as the index of the instruction before which the
builder inserts: the first instruction that is not a PHI node or, when that instruction
is an EH pad, the one after it. -/
def getFirstInsertionPt (BB : BasicBlock) : Nat :=
  let FirstNonPHI := (BB.takeWhile Instruction.isPHI).length
  match BB.drop FirstNonPHI with
  | [] => FirstNonPHI
  | I :: _ => if I.isEHPad then FirstNonPHI + 1 else FirstNonPHI

/-- `Builder.getInt32(n)`: the argument is converted to `uint32_t`. -/
def getInt32 (n : Nat) : Value :=
  .int32 (n % 2 ^ 32)

/-- STEP 1, `M.getOrInsertFunction("printf", PrintfTy)`: the declaration
`declare i32 @printf(i8*, ...)` is added at the end of the list of functions unless the
module has a function of that name. -/
def getOrInsertPrintf (functions : List Function) : List Function :=
  if functions.any (fun F => F.name == "printf") then functions
  else functions ++ [⟨"printf", 1, []⟩]

/-- STEP 2, `M.getOrInsertGlobal("PrintfFormatStr", ...)` followed by `setInitializer`. -/
def setFormatStr (PrintfFormatStr : String) (globals : List GlobalVariable) :
    List GlobalVariable :=
  if globals.any (fun G => G.name == "PrintfFormatStr") then
    globals.map (fun G =>
      if G.name == "PrintfFormatStr" then ⟨G.name, some PrintfFormatStr⟩ else G)
  else globals ++ [⟨"PrintfFormatStr", some PrintfFormatStr⟩]

/-- The body of the loop of STEP 3 for a function that is not a declaration, `entry` being
its entry block and `rest` its other blocks: the builder is set to the first insertion
point of the entry block and inserts the call
`printf(FormatStrPtr, FuncName, getInt32(F.arg_size()))` there. -/
def injectCall (F : Function) (entry : BasicBlock) (rest : List BasicBlock) : Function :=
  let IP := getFirstInsertionPt entry
  let FuncName := Value.globalStringPtr F.name
  let FormatStrPtr := Value.formatStrPtr
  let Call := Instruction.call "printf" [FormatStrPtr, FuncName, getInt32 F.argSize]
  ⟨F.name, F.argSize, (entry.take IP ++ Call :: entry.drop IP) :: rest⟩

/-- STEP 3: the loop over the functions of the module. The state is the list of the
functions already visited, the globals of the module (`CreateGlobalStringPtr` adds one
that holds the name of the function) and the flag `InsertedAtLeastOnePrintf`. A function
that is not a declaration has an entry block, so the case without blocks after the test
`isDeclaration` is never taken. -/
def injectAll :
    List Function → List Function × List GlobalVariable × Bool →
      List Function × List GlobalVariable × Bool
  | [], s => s
  | F :: rest, (done, globals, InsertedAtLeastOnePrintf) =>
    if F.isDeclaration then
      injectAll rest (done ++ [F], globals, InsertedAtLeastOnePrintf)
    else
      match F.blocks with
      | [] => injectAll rest (done ++ [F], globals, InsertedAtLeastOnePrintf)
      | entry :: others =>
        injectAll rest
          (done ++ [injectCall F entry others], globals ++ [⟨".str", some F.name⟩], true)

/-- `InjectFuncCall::runOnModule(M)`: the module after the pass and the returned flag. -/
def runOnModule (PrintfFormatStr : String) (M : Module) : Module × Bool :=
  let functions := getOrInsertPrintf M.functions
  let globals := setFormatStr PrintfFormatStr M.globals
  let r := injectAll functions ([], globals, false)
  (⟨r.1, r.2.1⟩, r.2.2)

/-- What one iteration of the loop of STEP 3 leaves in the place of the function it
visits. -/
def visitFunction (F : Function) : Function :=
  if F.isDeclaration then F
  else
    match F.blocks with
    | [] => F
    | entry :: others => injectCall F entry others

/-- A module with the definition of `foo(int, int, int)`, whose body has two blocks, and
the declaration of `bar`. -/
def exampleM : Module :=
  ⟨[⟨"foo", 3, [[.other 1, .other 2], [.other 3]]⟩, ⟨"bar", 1, []⟩], []⟩

end InjectFuncCall

namespace RIV

/-! ## Lemmas on the containers -/

namespace Result

theorem find_append (m m' : Result) (b : BasicBlock) :
    find (m ++ m') b = match find m b with
      | some s => some s
      | none => find m' b := by
  induction m with
  | nil => simp [find]
  | cons e m ih =>
    obtain ⟨k, s⟩ := e
    by_cases h : k = b
    · simp [find, h]
    · simp [find, h, ih]

theorem find_subscript (m : Result) (k b : BasicBlock) :
    find (subscript m k) b = if k = b then some (get m k) else find m b := by
  unfold subscript get
  cases hk : find m k with
  | some s =>
    by_cases h : k = b
    · subst h; simp [hk]
    · simp [h]
  | none =>
    by_cases h : k = b
    · subst h; simp [find_append, hk, find]
    · simp only [find_append, find, h, if_false]
      cases find m b <;> rfl

theorem find_set (m : Result) (k b : BasicBlock) (s' : ValueSet) :
    find (set m k s') b = if k = b then (find m k).map (fun _ => s') else find m b := by
  induction m with
  | nil => simp [set, find]
  | cons e m ih =>
    obtain ⟨k', s⟩ := e
    by_cases h' : k' = k
    · subst h'
      by_cases h : k' = b
      · simp [set, find, h]
      · simp [set, find, h]
    · by_cases h : k = b
      · subst h
        simp [set, find, h', ih]
      · simp only [set, find, h', if_false, ih, h]

theorem get_subscript (m : Result) (k b : BasicBlock) :
    get (subscript m k) b = get m b := by
  unfold get
  rw [find_subscript]
  by_cases h : k = b
  · subst h; simp [get]
  · simp [h]

theorem find_insertRange (m : Result) (k b : BasicBlock) (vs : ValueSet) :
    find (insertRange m k vs) b = if k = b then some (get m k ∪ vs) else find m b := by
  unfold insertRange
  rw [find_set]
  by_cases h : k = b
  · simp [h, find_subscript]
  · simp [h, find_subscript]

theorem find_insertValue (m : Result) (k b : BasicBlock) (v : Value) :
    find (insertValue m k v) b = if k = b then some (insert v (get m k)) else find m b := by
  unfold insertValue
  rw [find_set]
  by_cases h : k = b
  · simp [h, find_subscript]
  · simp [h, find_subscript]

theorem get_insertRange (m : Result) (k b : BasicBlock) (vs : ValueSet) :
    get (insertRange m k vs) b = if k = b then get m k ∪ vs else get m b := by
  rw [get, find_insertRange]
  by_cases h : k = b
  · simp [h]
  · simp [h, get]

theorem mem_keys_iff (m : Result) (b : BasicBlock) :
    b ∈ keys m ↔ (find m b).isSome = true := by
  induction m with
  | nil => simp [keys, find]
  | cons e m ih =>
    obtain ⟨k, s⟩ := e
    by_cases h : k = b
    · simp [keys, find, h]
    · have h2 : ¬ b = k := fun e => h e.symm
      simp only [keys, List.map_cons, List.mem_cons, find, h, h2, if_false, false_or]
      exact ih

end Result

/-! ## STEP 1 and STEP 2 -/

theorem find_collectInsts (BB : BasicBlock) (insts : List Instruction) (D : DefValMapTy)
    (s : ValueSet) (h : Result.find D BB = some s) (b : BasicBlock) :
    Result.find (collectInsts BB insts D) b =
      if BB = b then
        some (s ∪ ((insts.filter (fun I => I.type.isIntegerTy)).map Value.instruction).toFinset)
      else Result.find D b := by
  induction insts generalizing D s with
  | nil => by_cases hb : BB = b <;> simp_all [collectInsts]
  | cons I rest ih =>
    by_cases hI : I.type.isIntegerTy = true
    · have h1 : Result.find (Result.insertValue D BB (.instruction I)) BB
          = some (insert (.instruction I) s) := by
        simp [Result.find_insertValue, Result.get, h]
      simp only [collectInsts, hI, if_true]
      rw [ih _ _ h1]
      by_cases hb : BB = b
      · simp only [hb, if_true, Option.some.injEq]
        ext v
        simp [List.filter_cons, hI]
      · simp [hb, Result.find_insertValue]
    · simp [collectInsts, hI, ih _ _ h, List.filter_cons]

theorem find_collectDefs (blocks : List BasicBlock) (D : DefValMapTy) (b : BasicBlock) :
    Result.find (collectDefs blocks D) b =
      if b ∈ blocks then some (Result.get D b ∪ definedIn b) else Result.find D b := by
  induction blocks generalizing D with
  | nil => simp [collectDefs]
  | cons BB rest ih =>
    have h0 : Result.find (Result.subscript D BB) BB = some (Result.get D BB) := by
      simp [Result.find_subscript]
    have h1 := find_collectInsts BB BB.insts _ _ h0
    simp only [collectDefs]
    rw [ih]
    by_cases hb : BB = b
    · subst hb
      simp only [Result.get, h1, List.mem_cons, true_or, if_true, definedIn]
      by_cases hr : BB ∈ rest
      · simp [hr]
      · simp [hr]
    · have hb2 : ¬ b = BB := fun e => hb e.symm
      simp [Result.get, h1, hb, hb2, Result.find_subscript]

theorem find_seedGlobals (E : BasicBlock) (gs : List GlobalVariable) (R : Result)
    (s : ValueSet) (h : Result.find R E = some s) (b : BasicBlock) :
    Result.find (seedGlobals E gs R) b =
      if E = b then
        some (s ∪ ((gs.filter (fun G => G.valueType.isIntegerTy)).map Value.global).toFinset)
      else Result.find R b := by
  induction gs generalizing R s with
  | nil => by_cases hb : E = b <;> simp_all [seedGlobals]
  | cons G rest ih =>
    by_cases hG : G.valueType.isIntegerTy = true
    · have h1 : Result.find (Result.insertValue R E (.global G)) E
          = some (insert (.global G) s) := by
        simp [Result.find_insertValue, Result.get, h]
      simp only [seedGlobals, hG, if_true]
      rw [ih _ _ h1]
      by_cases hb : E = b
      · simp only [hb, if_true, Option.some.injEq]
        ext v
        simp [List.filter_cons, hG]
      · simp [hb, Result.find_insertValue]
    · simp [seedGlobals, hG, ih _ _ h, List.filter_cons]

theorem find_seedArgs (E : BasicBlock) (as : List Argument) (R : Result)
    (s : ValueSet) (h : Result.find R E = some s) (b : BasicBlock) :
    Result.find (seedArgs E as R) b =
      if E = b then
        some (s ∪ ((as.filter (fun A => A.type.isIntegerTy)).map Value.argument).toFinset)
      else Result.find R b := by
  induction as generalizing R s with
  | nil => by_cases hb : E = b <;> simp_all [seedArgs]
  | cons A rest ih =>
    by_cases hA : A.type.isIntegerTy = true
    · have h1 : Result.find (Result.insertValue R E (.argument A)) E
          = some (insert (.argument A) s) := by
        simp [Result.find_insertValue, Result.get, h]
      simp only [seedArgs, hA, if_true]
      rw [ih _ _ h1]
      by_cases hb : E = b
      · simp only [hb, if_true, Option.some.injEq]
        ext v
        simp [List.filter_cons, hA]
      · simp [hb, Result.find_insertValue]
    · simp [seedArgs, hA, ih _ _ h, List.filter_cons]

/-- The map with which STEP 3 starts: the entry block is its only key and holds the
seed. -/
theorem find_entry_seed (F : Function) (b : BasicBlock) :
    Result.find (seedArgs F.getEntryBlock F.args
        (seedGlobals F.getEntryBlock F.globals (Result.subscript [] F.getEntryBlock))) b =
      if F.getEntryBlock = b then some (seed F) else none := by
  have h0 : Result.find (Result.subscript [] F.getEntryBlock) F.getEntryBlock = some ∅ := by
    simp [Result.find_subscript, Result.get, Result.find]
  have h1 := find_seedGlobals F.getEntryBlock F.globals _ _ h0
  have h1e := h1 F.getEntryBlock
  rw [if_pos rfl] at h1e
  have h2 := find_seedArgs F.getEntryBlock F.args _ _ h1e
  rw [h2]
  by_cases hb : F.getEntryBlock = b
  · simp [hb, seed]
  · simp [hb, h1, Result.find_subscript, Result.find]

/-! ## Lemmas on dominator trees -/

namespace DomTreeNode

theorem nodes_eq (t : DomTreeNode) : nodes t = t :: nodesList t.children := by
  cases t; simp [nodes, children]

theorem nodesList_append (a b : List DomTreeNode) :
    nodesList (a ++ b) = nodesList a ++ nodesList b := by
  induction a with
  | nil => simp [nodesList]
  | cons c cs ih => simp [nodesList, ih]

theorem nodesList_concat (w : List DomTreeNode) (t : DomTreeNode) :
    nodesList (w ++ [t]) = nodesList w ++ t :: nodesList t.children := by
  rw [nodesList_append]
  simp [nodesList, nodes_eq]

theorem mem_nodesList {n : DomTreeNode} {ws : List DomTreeNode} :
    n ∈ nodesList ws ↔ ∃ t ∈ ws, n ∈ nodes t := by
  induction ws with
  | nil => simp [nodesList]
  | cons c cs ih => simp [nodesList, ih]

theorem self_mem_nodes (t : DomTreeNode) : t ∈ nodes t := by
  rw [nodes_eq]; exact List.mem_cons_self _ _

theorem mem_nodes_iff {n t : DomTreeNode} :
    n ∈ nodes t ↔ n = t ∨ ∃ c ∈ t.children, n ∈ nodes c := by
  rw [nodes_eq, List.mem_cons, mem_nodesList]

/-- Structural induction on dominator trees. -/
theorem induct (motive : DomTreeNode → Prop)
    (h : ∀ t, (∀ c ∈ t.children, motive c) → motive t) : ∀ t, motive t :=
  @DomTreeNode.rec motive (fun cs => ∀ c ∈ cs, motive c)
    (fun b cs ih => h (mk b cs) ih)
    (fun c hc => absurd hc (List.not_mem_nil c))
    (fun c cs ihc ihcs x hx => by
      rcases List.mem_cons.1 hx with rfl | hx
      · exact ihc
      · exact ihcs x hx)

/-- Being in the subtree of a node is transitive. -/
theorem mem_nodes_trans {a b : DomTreeNode} (c : DomTreeNode) (hab : a ∈ nodes b) :
    b ∈ nodes c → a ∈ nodes c := by
  induction c using induct with
  | h t ih =>
    intro hb
    rcases mem_nodes_iff.1 hb with rfl | ⟨c, hc, hbc⟩
    · exact hab
    · exact mem_nodes_iff.2 (Or.inr ⟨c, hc, ih c hc hbc⟩)

theorem blocksOf_append (a b : List DomTreeNode) :
    blocksOf (a ++ b) = blocksOf a ++ blocksOf b := by
  simp [blocksOf, nodesList_append]

theorem blocksOf_concat (w : List DomTreeNode) (t : DomTreeNode) :
    blocksOf (w ++ [t]) = blocksOf w ++ t.getBlock :: blocksOf t.children := by
  simp [blocksOf, nodesList_concat]

theorem mem_blocksOf {b : BasicBlock} {ws : List DomTreeNode} :
    b ∈ blocksOf ws ↔ ∃ n ∈ nodesList ws, n.getBlock = b := by
  simp [blocksOf]

theorem getBlock_mem_blocksOf {c : DomTreeNode} {cs : List DomTreeNode} (h : c ∈ cs) :
    c.getBlock ∈ blocksOf cs :=
  mem_blocksOf.2 ⟨c, mem_nodesList.2 ⟨c, h, self_mem_nodes c⟩, rfl⟩

theorem blocksOf_children_subset {c : DomTreeNode} {cs : List DomTreeNode} (h : c ∈ cs)
    {b : BasicBlock} (hb : b ∈ blocksOf c.children) : b ∈ blocksOf cs := by
  obtain ⟨n, hn, rfl⟩ := mem_blocksOf.1 hb
  refine mem_blocksOf.2 ⟨n, mem_nodesList.2 ⟨c, h, ?_⟩, rfl⟩
  rw [nodes_eq]; exact List.mem_cons_of_mem _ hn

end DomTreeNode

/-! ## The loop of STEP 3 -/

theorem eq_nil_or_snoc (w : List DomTreeNode) : w = [] ∨ ∃ w0 t, w = w0 ++ [t] := by
  rcases List.eq_nil_or_concat w with h | ⟨w0, t, h⟩
  · exact Or.inl h
  · exact Or.inr ⟨w0, t, by simpa using h⟩

theorem loop_nil (fuel : Nat) (D : DefValMapTy) (R : Result) :
    loop fuel ⟨[], D, R⟩ = some R := by
  cases fuel <;> rfl

theorem loop_zero_concat (w : List DomTreeNode) (t : DomTreeNode) (D : DefValMapTy)
    (R : Result) : loop 0 ⟨w ++ [t], D, R⟩ = none := by
  cases w <;> rfl

theorem loop_succ_concat (fuel : Nat) (w : List DomTreeNode) (t : DomTreeNode)
    (D : DefValMapTy) (R : Result) :
    loop (fuel + 1) ⟨w ++ [t], D, R⟩ = loop fuel (loopBody t w D R) := by
  cases w with
  | nil => simp [loop]
  | cons n ns =>
    have h1 : ∀ h, (n :: (ns ++ [t])).getLast h = t := by
      intro h
      simp [List.getLast_cons]
    have h2 : (n :: (ns ++ [t])).dropLast = n :: ns := by
      rw [← List.cons_append]
      exact List.dropLast_concat
    show loop (fuel + 1) ⟨n :: (ns ++ [t]), D, R⟩ = _
    simp only [loop, h1, h2]

theorem updateChildren_fst (PD PR : ValueSet) (cs : List DomTreeNode) (w : List DomTreeNode)
    (R : Result) : (updateChildren PD PR cs (w, R)).1 = w ++ cs := by
  induction cs generalizing w R with
  | nil => simp [updateChildren]
  | cons c rest ih => simp [updateChildren, ih]

theorem find_updateChildren (PD PR : ValueSet) (cs : List DomTreeNode) (w : List DomTreeNode)
    (R : Result) (b : BasicBlock) :
    Result.find (updateChildren PD PR cs (w, R)).2 b =
      if b ∈ cs.map DomTreeNode.getBlock then some (Result.get R b ∪ PD ∪ PR)
      else Result.find R b := by
  induction cs generalizing w R with
  | nil => simp [updateChildren]
  | cons c rest ih =>
    simp only [updateChildren]
    rw [ih]
    by_cases hb : c.getBlock = b
    · subst hb
      by_cases hr : c.getBlock ∈ rest.map DomTreeNode.getBlock
      · simp only [hr, if_true, List.map_cons, List.mem_cons, true_or, Result.get_insertRange,
          Option.some.injEq]
        ext v; simp; tauto
      · simp [hr, Result.find_insertRange, Result.get_insertRange]
    · have hb2 : ¬ b = c.getBlock := fun e => hb e.symm
      simp [hb, hb2, Result.find_insertRange, Result.get_insertRange]

theorem loopBody_work (t : DomTreeNode) (w : List DomTreeNode) (D : DefValMapTy) (R : Result) :
    (loopBody t w D R).BBsToProcess = w ++ t.children := by
  simp [loopBody, updateChildren_fst]

theorem loopBody_defs (t : DomTreeNode) (w : List DomTreeNode) (D : DefValMapTy) (R : Result)
    (b : BasicBlock) :
    Result.get (loopBody t w D R).DefinedValuesMap b = Result.get D b := by
  simp [loopBody, Result.get_subscript]

theorem loopBody_find (t : DomTreeNode) (w : List DomTreeNode) (D : DefValMapTy) (R : Result)
    (b : BasicBlock) :
    Result.find (loopBody t w D R).ResultMap b =
      if b ∈ t.children.map DomTreeNode.getBlock then
        some (Result.get R b ∪ Result.get D t.getBlock ∪ Result.get R t.getBlock)
      else if t.getBlock = b then some (Result.get R t.getBlock)
      else Result.find R b := by
  simp [loopBody, find_updateChildren, Result.get_subscript, Result.find_subscript]

/-- Induction along the iterations of the loop. -/
theorem loop_induction (motive : LoopState → Result → Prop)
    (hnil : ∀ D R, motive ⟨[], D, R⟩ R)
    (hstep : ∀ w t D R Rfin, motive (loopBody t w D R) Rfin → motive ⟨w ++ [t], D, R⟩ Rfin) :
    ∀ fuel s Rfin, loop fuel s = some Rfin → motive s Rfin := by
  intro fuel
  induction fuel with
  | zero =>
    rintro ⟨w, D, R⟩ Rfin h
    rcases eq_nil_or_snoc w with rfl | ⟨w0, t, rfl⟩
    · rw [loop_nil] at h; cases h; exact hnil D R
    · rw [loop_zero_concat] at h; cases h
  | succ fuel ih =>
    rintro ⟨w, D, R⟩ Rfin h
    rcases eq_nil_or_snoc w with rfl | ⟨w0, t, rfl⟩
    · rw [loop_nil] at h; cases h; exact hnil D R
    · rw [loop_succ_concat] at h
      exact hstep w0 t D R Rfin (ih _ _ h)

/-- The loop ends as soon as it is given one iteration per node waiting in the deque
or below such a node. -/
theorem loop_terminates (fuel : Nat) :
    ∀ (w : List DomTreeNode) (D : DefValMapTy) (R : Result),
      (DomTreeNode.nodesList w).length ≤ fuel → ∃ Rfin, loop fuel ⟨w, D, R⟩ = some Rfin := by
  induction fuel with
  | zero =>
    intro w D R h
    rcases eq_nil_or_snoc w with rfl | ⟨w0, t, rfl⟩
    · exact ⟨R, loop_nil _ _ _⟩
    · rw [DomTreeNode.nodesList_concat] at h; simp at h
  | succ fuel ih =>
    intro w D R h
    rcases eq_nil_or_snoc w with rfl | ⟨w0, t, rfl⟩
    · exact ⟨R, loop_nil _ _ _⟩
    · rw [loop_succ_concat]
      have hb := loopBody_work t w0 D R
      have : (DomTreeNode.nodesList (loopBody t w0 D R).BBsToProcess).length ≤ fuel := by
        rw [hb, DomTreeNode.nodesList_append]
        rw [DomTreeNode.nodesList_concat] at h
        simp at h ⊢
        omega
      exact ih _ _ _ this

theorem DomTreeNode.blocksOf_cons (x : DomTreeNode) (xs : List DomTreeNode) :
    DomTreeNode.blocksOf (x :: xs) =
      x.getBlock :: (DomTreeNode.blocksOf x.children ++ DomTreeNode.blocksOf xs) := by
  simp [DomTreeNode.blocksOf, DomTreeNode.nodesList, DomTreeNode.nodes_eq]

/-- In a forest without repeated blocks, no root of the forest has the block of a node
that lies strictly below a root. -/
theorem DomTreeNode.root_ne_of_nodup (cs : List DomTreeNode)
    (h : (DomTreeNode.blocksOf cs).Nodup) :
    ∀ u ∈ cs, ∀ b ∈ DomTreeNode.blocksOf u.children, ∀ c ∈ cs, c.getBlock ≠ b := by
  induction cs with
  | nil => intro u hu; cases hu
  | cons x xs ih =>
    rw [DomTreeNode.blocksOf_cons, List.nodup_cons, List.nodup_append] at h
    obtain ⟨hx, -, hxs, hdis⟩ := h
    intro u hu b hb c hc
    rcases List.mem_cons.1 hu with rfl | hu
    · rcases List.mem_cons.1 hc with rfl | hc
      · intro e; exact hx (List.mem_append_left _ (e ▸ hb))
      · intro e
        exact hdis hb (e ▸ DomTreeNode.getBlock_mem_blocksOf hc)
    · have hb2 := DomTreeNode.blocksOf_children_subset hu hb
      rcases List.mem_cons.1 hc with rfl | hc
      · intro e; exact hx (List.mem_append_right _ (e ▸ hb2))
      · exact ih hxs u hu b hb c hc

theorem mem_children_blocks {t : DomTreeNode} {b : BasicBlock}
    (h : b ∈ t.children.map DomTreeNode.getBlock) : b ∈ DomTreeNode.blocksOf t.children := by
  obtain ⟨c, hc, rfl⟩ := List.mem_map.1 h
  exact DomTreeNode.getBlock_mem_blocksOf hc

/-- The keys of the final map: those of the initial map and the blocks of all nodes that
the loop still has to visit. -/
theorem loop_keys (fuel : Nat) (w : List DomTreeNode) (D : DefValMapTy) (R Rfin : Result)
    (h : loop fuel ⟨w, D, R⟩ = some Rfin) (b : BasicBlock) :
    (Result.find Rfin b).isSome = true ↔
      ((Result.find R b).isSome = true ∨ b ∈ DomTreeNode.blocksOf w) := by
  refine loop_induction
    (fun s Rf => ∀ b, (Result.find Rf b).isSome = true ↔
      ((Result.find s.ResultMap b).isSome = true ∨ b ∈ DomTreeNode.blocksOf s.BBsToProcess))
    ?_ ?_ fuel _ _ h b
  · intro D R b
    simp [DomTreeNode.blocksOf, DomTreeNode.nodesList]
  · intro w t D R Rf ih b
    rw [ih b, loopBody_find, loopBody_work, DomTreeNode.blocksOf_append,
      DomTreeNode.blocksOf_concat]
    have hsub : b ∈ t.children.map DomTreeNode.getBlock →
        b ∈ DomTreeNode.blocksOf t.children := mem_children_blocks
    by_cases h1 : b ∈ t.children.map DomTreeNode.getBlock
    · have := hsub h1
      simp [h1, this]
    · by_cases h2 : t.getBlock = b
      · subst h2; simp [h1]
      · have h3 : ¬ b = t.getBlock := fun e => h2 e.symm
        simp only [h1, h2, if_false, List.mem_append, List.mem_cons, h3, false_or]

/-- Every value of the final map comes from the initial map or from the map of
definitions. -/
theorem loop_closed (A : Value → Prop) (fuel : Nat) (w : List DomTreeNode) (D : DefValMapTy)
    (R Rfin : Result) (h : loop fuel ⟨w, D, R⟩ = some Rfin)
    (hD : ∀ b, ∀ v ∈ Result.get D b, A v) (hR : ∀ b, ∀ v ∈ Result.get R b, A v) :
    ∀ b, ∀ v ∈ Result.get Rfin b, A v := by
  refine loop_induction
    (fun s Rf => (∀ b, ∀ v ∈ Result.get s.DefinedValuesMap b, A v) →
      (∀ b, ∀ v ∈ Result.get s.ResultMap b, A v) → ∀ b, ∀ v ∈ Result.get Rf b, A v)
    ?_ ?_ fuel _ _ h hD hR
  · intro D R _ hR; exact hR
  · intro w t D R Rf ih hD hR
    apply ih
    · intro b v hv
      rw [loopBody_defs] at hv
      exact hD b v hv
    · intro b v hv
      rw [Result.get, loopBody_find] at hv
      by_cases h1 : b ∈ t.children.map DomTreeNode.getBlock
      · simp only [h1, if_true, Option.getD_some, Finset.mem_union] at hv
        rcases hv with (hv | hv) | hv
        · exact hR _ _ hv
        · exact hD _ _ hv
        · exact hR _ _ hv
      · by_cases h2 : t.getBlock = b
        · simp only [h1, h2, if_false, if_true, Option.getD_some] at hv
          exact hR _ _ (h2 ▸ hv)
        · simp only [h1, h2, if_false] at hv
          exact hR _ _ hv

/-- One iteration of the loop of STEP 3 keeps `EquationsInv`, whatever the position in the
deque of the node that the iteration takes is called. -/
theorem equations_step (d : BasicBlock → ValueSet) (w : List DomTreeNode) (t : DomTreeNode)
    (D : DefValMapTy) (R Rf : Result) (ih : EquationsInv d (loopBody t w D R) Rf) :
    EquationsInv d ⟨w ++ [t], D, R⟩ Rf := by
  intro hD hN hF
  unfold EquationsInv at ih
  simp only [loopBody_work] at ih
  simp only at hD hN hF
  rw [DomTreeNode.blocksOf_concat, List.nodup_append, List.nodup_cons] at hN
  obtain ⟨hNw, ⟨hNt, hNc⟩, hdis⟩ := hN
  have hchild : ∀ b, b ∈ t.children.map DomTreeNode.getBlock →
      b ∈ DomTreeNode.blocksOf t.children := fun b => mem_children_blocks
  -- facts on blocks strictly below the new deque
  have hbelow : ∀ u ∈ w ++ t.children, ∀ b ∈ DomTreeNode.blocksOf u.children,
      (b ∈ DomTreeNode.blocksOf w ∨ b ∈ DomTreeNode.blocksOf t.children) ∧
      b ∉ t.children.map DomTreeNode.getBlock ∧ t.getBlock ≠ b := by
    intro u hu b hb
    rcases List.mem_append.1 hu with hu | hu
    · have hbw := DomTreeNode.blocksOf_children_subset hu hb
      refine ⟨Or.inl hbw, fun hc => ?_, fun e => ?_⟩
      · exact hdis hbw (List.mem_cons_of_mem _ (hchild b hc))
      · exact hdis hbw (e ▸ List.mem_cons_self _ _)
    · have hbc := DomTreeNode.blocksOf_children_subset hu hb
      refine ⟨Or.inr hbc, fun hc => ?_, fun e => hNt (e ▸ hbc)⟩
      obtain ⟨c, hc, hcb⟩ := List.mem_map.1 hc
      exact DomTreeNode.root_ne_of_nodup _ hNc u hu b hb c hc hcb
  have hfresh : ∀ b ∈ DomTreeNode.blocksOf t.children, Result.find R b = none :=
    fun b hb => hF t (by simp) b hb
  obtain ⟨ih1, ih2⟩ := ih (fun b => by rw [loopBody_defs]; exact hD b)
    (by
      rw [DomTreeNode.blocksOf_append, List.nodup_append]
      exact ⟨hNw, hNc, fun b hb hb2 => hdis hb (List.mem_cons_of_mem _ hb2)⟩)
    (by
      intro u hu b hb
      obtain ⟨hor, hnc, hnt⟩ := hbelow u hu b hb
      rw [loopBody_find]
      simp only [hnc, hnt, if_false]
      rcases List.mem_append.1 hu with hu | hu
      · exact hF u (List.mem_append_left _ hu) b hb
      · exact hfresh b (DomTreeNode.blocksOf_children_subset hu hb))
  -- the set of the popped node is final
  have ht1 : ∀ u ∈ w ++ t.children, t.getBlock ∉ DomTreeNode.blocksOf u.children :=
    fun u hu hb => (hbelow u hu _ hb).2.2 rfl
  have htc : t.getBlock ∉ t.children.map DomTreeNode.getBlock :=
    fun hc => hNt (hchild _ hc)
  have htfin : Result.get Rf t.getBlock = Result.get R t.getBlock := by
    rw [ih1 _ ht1, Result.get, loopBody_find]
    simp [htc, Result.get]
  refine ⟨?_, ?_⟩
  · intro b hb
    have hbt : b ∉ DomTreeNode.blocksOf t.children := hb t (by simp)
    have hb1 : ∀ u ∈ w ++ t.children, b ∉ DomTreeNode.blocksOf u.children := by
      intro u hu hbu
      rcases List.mem_append.1 hu with hu | hu
      · exact hb u (List.mem_append_left _ hu) hbu
      · exact hbt (DomTreeNode.blocksOf_children_subset hu hbu)
    have hbc : b ∉ t.children.map DomTreeNode.getBlock := fun hc => hbt (hchild _ hc)
    rw [ih1 b hb1, Result.get, loopBody_find]
    by_cases e : t.getBlock = b
    · subst e; simp [hbc, Result.get]
    · simp [hbc, e, Result.get]
  · intro P hP C hC
    rw [DomTreeNode.nodesList_concat] at hP
    rcases List.mem_append.1 hP with hP | hP
    · exact ih2 P (by rw [DomTreeNode.nodesList_append]; exact List.mem_append_left _ hP)
        C hC
    · rcases List.mem_cons.1 hP with rfl | hP
      · have hCm : C.getBlock ∈ P.children.map DomTreeNode.getBlock :=
          List.mem_map.2 ⟨C, hC, rfl⟩
        have hCb := hchild _ hCm
        have hC1 : ∀ u ∈ w ++ P.children, C.getBlock ∉ DomTreeNode.blocksOf u.children :=
          fun u hu hb => (hbelow u hu _ hb).2.1 hCm
        have hC0 : Result.get R C.getBlock = ∅ := by
          simp [Result.get, hfresh _ hCb]
        rw [ih1 _ hC1, htfin, Result.get, loopBody_find, ← hD]
        simp only [hCm, if_true, Option.getD_some, hC0]
        ext v; simp; tauto
      · exact ih2 P (by rw [DomTreeNode.nodesList_append]; exact List.mem_append_right _ hP)
          C hC

/-- When no block occurs twice among the nodes still to be visited and the blocks strictly
below the deque are not yet keys, the loop leaves every other set as it is and gives
every child the set of its parent together with the definitions of its parent. -/
theorem loop_equations (d : BasicBlock → ValueSet) (fuel : Nat) (w : List DomTreeNode)
    (D : DefValMapTy) (R Rfin : Result) (h : loop fuel ⟨w, D, R⟩ = some Rfin)
    (hD : ∀ b, Result.get D b = d b) (hN : (DomTreeNode.blocksOf w).Nodup)
    (hF : ∀ u ∈ w, ∀ b ∈ DomTreeNode.blocksOf u.children, Result.find R b = none) :
    (∀ b, (∀ u ∈ w, b ∉ DomTreeNode.blocksOf u.children) →
        Result.get Rfin b = Result.get R b) ∧
    (∀ P ∈ DomTreeNode.nodesList w, ∀ C ∈ P.children,
        Result.get Rfin C.getBlock = Result.get Rfin P.getBlock ∪ d P.getBlock) := by
  refine loop_induction (EquationsInv d) ?_ (equations_step d) fuel _ _ h hD hN hF
  intro D R _ _ _
  exact ⟨fun _ _ => rfl, fun P hP => by simp [DomTreeNode.nodesList] at hP⟩

/-- A set that belongs to no block strictly below the deque is not changed by the loop. -/
theorem loop_untouched (fuel : Nat) (w : List DomTreeNode) (D : DefValMapTy) (R Rfin : Result)
    (h : loop fuel ⟨w, D, R⟩ = some Rfin) (b : BasicBlock)
    (hb : ∀ u ∈ w, b ∉ DomTreeNode.blocksOf u.children) :
    Result.get Rfin b = Result.get R b := by
  refine loop_induction
    (fun s Rf => (∀ u ∈ s.BBsToProcess, b ∉ DomTreeNode.blocksOf u.children) →
      Result.get Rf b = Result.get s.ResultMap b)
    ?_ ?_ fuel _ _ h hb
  · intro D R _; rfl
  · intro w t D R Rf ih hb
    simp only [loopBody_work] at ih
    simp only at hb
    have hbt : b ∉ DomTreeNode.blocksOf t.children := hb t (by simp)
    have hbc : b ∉ t.children.map DomTreeNode.getBlock := fun hc => hbt (mem_children_blocks hc)
    rw [ih, Result.get, loopBody_find]
    · by_cases e : t.getBlock = b
      · subst e; simp [hbc, Result.get]
      · simp [hbc, e, Result.get]
    · intro u hu hbu
      rcases List.mem_append.1 hu with hu | hu
      · exact hb u (List.mem_append_left _ hu) hbu
      · exact hbt (DomTreeNode.blocksOf_children_subset hu hbu)

/-! ## Facts on the value returned by `buildRIV` -/

/-- The set stored by STEP 1 for a block: its integer instructions when it is a block of
the function, and nothing otherwise. -/
theorem get_collectDefs (F : Function) (b : BasicBlock) :
    Result.get (collectDefs F.blocks []) b = if b ∈ F.blocks then definedIn b else ∅ := by
  rw [Result.get, find_collectDefs]
  by_cases h : b ∈ F.blocks
  · simp [h, Result.get, Result.find]
  · simp [h, Result.find]

theorem blocksOf_singleton (root : DomTreeNode) :
    DomTreeNode.blocksOf [root] = (DomTreeNode.nodes root).map DomTreeNode.getBlock := by
  simp [DomTreeNode.blocksOf, DomTreeNode.nodesList]

theorem buildRIV_returns (fuel : Nat) (F : Function) (root : DomTreeNode)
    (hfuel : (DomTreeNode.nodes root).length ≤ fuel) : ∃ R, buildRIV fuel F root = some R := by
  unfold buildRIV
  exact loop_terminates fuel _ _ _ (by simpa [DomTreeNode.nodesList] using hfuel)

theorem buildRIV_keys (fuel : Nat) (F : Function) (root : DomTreeNode) (R : Result)
    (h : buildRIV fuel F root = some R) (b : BasicBlock) :
    (Result.find R b).isSome = true ↔
      (b = F.getEntryBlock ∨ b ∈ (DomTreeNode.nodes root).map DomTreeNode.getBlock) := by
  unfold buildRIV at h
  rw [loop_keys _ _ _ _ _ h b, find_entry_seed, blocksOf_singleton]
  by_cases e : F.getEntryBlock = b
  · simp [e]
  · have e2 : ¬ b = F.getEntryBlock := fun x => e x.symm
    simp [e, e2]

theorem buildRIV_entry (fuel : Nat) (F : Function) (root : DomTreeNode) (R : Result)
    (h : buildRIV fuel F root = some R)
    (hfresh : F.getEntryBlock ∉ DomTreeNode.blocksOf root.children) :
    Result.find R F.getEntryBlock = some (seed F) := by
  have hk := (buildRIV_keys fuel F root R h F.getEntryBlock).2 (Or.inl rfl)
  unfold buildRIV at h
  have hu := loop_untouched _ _ _ _ _ h F.getEntryBlock
    (by intro u hu; rw [List.mem_singleton.1 hu]; exact hfresh)
  rw [Result.get, Result.get, find_entry_seed, if_pos rfl] at hu
  cases hf : Result.find R F.getEntryBlock with
  | none => rw [hf] at hk; cases hk
  | some s => rw [hf] at hu; simpa using hu

theorem buildRIV_equations (fuel : Nat) (F : Function) (root : DomTreeNode) (R : Result)
    (h : buildRIV fuel F root = some R) (hroot : root.getBlock = F.getEntryBlock)
    (hN : ((DomTreeNode.nodes root).map DomTreeNode.getBlock).Nodup) :
    Result.get R root.getBlock = seed F ∧
    ∀ P ∈ DomTreeNode.nodes root, ∀ C ∈ P.children,
      Result.get R C.getBlock =
        Result.get R P.getBlock ∪ (if P.getBlock ∈ F.blocks then definedIn P.getBlock else ∅) := by
  have hN1 : (DomTreeNode.blocksOf [root]).Nodup := by rw [blocksOf_singleton]; exact hN
  have hN2 := hN1
  rw [DomTreeNode.blocksOf_cons, List.nodup_cons] at hN2
  have hfresh : F.getEntryBlock ∉ DomTreeNode.blocksOf root.children := by
    intro hc; rw [← hroot] at hc
    exact hN2.1 (List.mem_append_left _ hc)
  have he := buildRIV_entry fuel F root R h hfresh
  unfold buildRIV at h
  have := loop_equations (fun b => if b ∈ F.blocks then definedIn b else ∅) _ _ _ _ _ h
    (get_collectDefs F) hN1
    (by
      intro u hu b hb
      rw [List.mem_singleton.1 hu] at hb
      rw [find_entry_seed]
      have : ¬ F.getEntryBlock = b := fun e => hfresh (e ▸ hb)
      simp [this])
  refine ⟨by rw [hroot, Result.get, he]; rfl, fun P hP C hC => ?_⟩
  exact this.2 P (by simpa [DomTreeNode.nodesList] using hP) C hC

theorem buildRIV_find_of_mem (fuel : Nat) (F : Function) (root : DomTreeNode) (R : Result)
    (h : buildRIV fuel F root = some R) (n : DomTreeNode) (hn : n ∈ DomTreeNode.nodes root) :
    Result.find R n.getBlock = some (Result.get R n.getBlock) := by
  have hk := (buildRIV_keys fuel F root R h n.getBlock).2
    (Or.inr (List.mem_map.2 ⟨n, hn, rfl⟩))
  cases hf : Result.find R n.getBlock with
  | none => rw [hf] at hk; cases hk
  | some s => simp [Result.get, hf]

/-! ## From the parent-child equations to ancestors and descendants -/

/-- The proper descendants of a node: the nodes strictly below it. -/
theorem mem_properDescendants {B A : DomTreeNode} :
    B ∈ DomTreeNode.nodesList A.children ↔ ∃ c ∈ A.children, B ∈ DomTreeNode.nodes c :=
  DomTreeNode.mem_nodesList

theorem properDescendant_mem_nodes {B A : DomTreeNode}
    (h : B ∈ DomTreeNode.nodesList A.children) : B ∈ DomTreeNode.nodes A := by
  rw [DomTreeNode.nodes_eq]; exact List.mem_cons_of_mem _ h

/-- What a node holds and defines reaches every node below it. -/
theorem descendants_superset (g d : BasicBlock → ValueSet) (root : DomTreeNode)
    (hE : ∀ P ∈ DomTreeNode.nodes root, ∀ C ∈ P.children,
      g C.getBlock = g P.getBlock ∪ d P.getBlock) :
    ∀ A, A ∈ DomTreeNode.nodes root → ∀ B ∈ DomTreeNode.nodesList A.children,
      g A.getBlock ∪ d A.getBlock ⊆ g B.getBlock := by
  intro A
  induction A using DomTreeNode.induct with
  | h A ih =>
    intro hA B hB
    obtain ⟨c, hc, hBc⟩ := mem_properDescendants.1 hB
    have hcroot : c ∈ DomTreeNode.nodes root :=
      DomTreeNode.mem_nodes_trans root
        (DomTreeNode.mem_nodes_iff.2 (Or.inr ⟨c, hc, DomTreeNode.self_mem_nodes c⟩)) hA
    rcases DomTreeNode.mem_nodes_iff.1 hBc with rfl | hlow
    · rw [hE A hA B hc]
    · have h1 := ih c hc hcroot B (mem_properDescendants.2 hlow)
      have h2 := hE A hA c hc
      intro v hv
      apply h1
      rw [h2]
      exact Finset.mem_union_left _ hv

/-- Every value of a node's set is in the set of a given ancestor or is defined by a node
between the two. -/
theorem ancestors_cover (g d : BasicBlock → ValueSet) (root : DomTreeNode)
    (hE : ∀ P ∈ DomTreeNode.nodes root, ∀ C ∈ P.children,
      g C.getBlock = g P.getBlock ∪ d P.getBlock) (v : Value) :
    ∀ t, t ∈ DomTreeNode.nodes root → ∀ M ∈ DomTreeNode.nodes t, v ∈ g M.getBlock →
      v ∈ g t.getBlock ∨
      ∃ A ∈ DomTreeNode.nodes t, M ∈ DomTreeNode.nodesList A.children ∧ v ∈ d A.getBlock := by
  intro t
  induction t using DomTreeNode.induct with
  | h t ih =>
    intro ht M hM hv
    rcases DomTreeNode.mem_nodes_iff.1 hM with rfl | ⟨c, hc, hMc⟩
    · exact Or.inl hv
    · have hct : c ∈ DomTreeNode.nodes t :=
        DomTreeNode.mem_nodes_iff.2 (Or.inr ⟨c, hc, DomTreeNode.self_mem_nodes c⟩)
      have hcroot : c ∈ DomTreeNode.nodes root := DomTreeNode.mem_nodes_trans root hct ht
      rcases ih c hc hcroot M hMc hv with hvc | ⟨A, hA, hMA, hvA⟩
      · rw [hE t ht c hc, Finset.mem_union] at hvc
        rcases hvc with hvt | hvd
        · exact Or.inl hvt
        · exact Or.inr ⟨t, DomTreeNode.self_mem_nodes t,
            mem_properDescendants.2 ⟨c, hc, hMc⟩, hvd⟩
      · exact Or.inr ⟨A, DomTreeNode.mem_nodes_trans t hA hct, hMA, hvA⟩

/-- A forest without repeated blocks has no repeated block inside any of its trees. -/
theorem nodup_of_mem_forest (cs : List DomTreeNode) (h : (DomTreeNode.blocksOf cs).Nodup)
    (c : DomTreeNode) (hc : c ∈ cs) : (DomTreeNode.blocksOf [c]).Nodup := by
  induction cs with
  | nil => cases hc
  | cons x xs ih =>
    have e : DomTreeNode.blocksOf (x :: xs) =
        DomTreeNode.blocksOf [x] ++ DomTreeNode.blocksOf xs := by
      simpa using DomTreeNode.blocksOf_append [x] xs
    rw [e, List.nodup_append] at h
    rcases List.mem_cons.1 hc with rfl | hc
    · exact h.1
    · exact ih h.2.1 hc

/-- Inside a tree without repeated blocks every subtree is without repeated blocks. -/
theorem nodup_subtree (root : DomTreeNode) :
    (DomTreeNode.blocksOf [root]).Nodup → ∀ A ∈ DomTreeNode.nodes root,
      (DomTreeNode.blocksOf [A]).Nodup := by
  induction root using DomTreeNode.induct with
  | h t ih =>
    intro hN A hA
    rcases DomTreeNode.mem_nodes_iff.1 hA with rfl | ⟨c, hc, hAc⟩
    · exact hN
    · have hN2 := hN
      rw [DomTreeNode.blocksOf_cons, List.nodup_cons, List.nodup_append] at hN2
      exact ih c hc (nodup_of_mem_forest _ hN2.2.1 c hc) A hAc

/-- In a tree without repeated blocks a node and a node strictly below it have different
blocks. -/
theorem block_ne_of_properDescendant (root : DomTreeNode)
    (hN : ((DomTreeNode.nodes root).map DomTreeNode.getBlock).Nodup)
    (A : DomTreeNode) (hA : A ∈ DomTreeNode.nodes root) (M : DomTreeNode)
    (hM : M ∈ DomTreeNode.nodesList A.children) : A.getBlock ≠ M.getBlock := by
  have h1 := nodup_subtree root (by rw [blocksOf_singleton]; exact hN) A hA
  rw [DomTreeNode.blocksOf_cons, List.nodup_cons] at h1
  intro e
  exact h1.1 (List.mem_append_left _ (DomTreeNode.mem_blocksOf.2 ⟨M, hM, e.symm⟩))

theorem mem_definedIn {v : Value} {BB : BasicBlock} :
    v ∈ definedIn BB ↔ ∃ I ∈ BB.insts, I.type.isIntegerTy = true ∧ v = Value.instruction I := by
  simp only [definedIn, List.mem_toFinset, List.mem_map, List.mem_filter]
  constructor
  · rintro ⟨I, ⟨hI, hT⟩, rfl⟩; exact ⟨I, hI, hT, rfl⟩
  · rintro ⟨I, hI, hT, rfl⟩; exact ⟨I, ⟨hI, hT⟩, rfl⟩

theorem mem_seed {v : Value} {F : Function} :
    v ∈ seed F ↔
      (∃ G ∈ F.globals, G.valueType.isIntegerTy = true ∧ v = Value.global G) ∨
      (∃ A ∈ F.args, A.type.isIntegerTy = true ∧ v = Value.argument A) := by
  simp only [seed, Finset.mem_union, List.mem_toFinset, List.mem_map, List.mem_filter]
  constructor
  · rintro (⟨G, ⟨hG, hT⟩, rfl⟩ | ⟨A, ⟨hA, hT⟩, rfl⟩)
    · exact Or.inl ⟨G, hG, hT, rfl⟩
    · exact Or.inr ⟨A, hA, hT, rfl⟩
  · rintro (⟨G, hG, hT, rfl⟩ | ⟨A, hA, hT, rfl⟩)
    · exact Or.inl ⟨G, ⟨hG, hT⟩, rfl⟩
    · exact Or.inr ⟨A, ⟨hA, hT⟩, rfl⟩

/-! ## Properties of the result of `buildRIV` -/

/-- C1 (monotone inheritance law). For every function and every dominator tree rooted at
the entry block in which no block belongs to two nodes (so the block of the root is the
block of no child), `buildRIV` returns a map in which, for every tree node `P` whose block
is a block of the function and every child `B` of `P`, the set of `B` includes the set of
`P` and the integer-typed instructions of `P`. -/
theorem buildRIV_monotone_inheritance (fuel : Nat) (F : Function) (root : DomTreeNode)
    (hfuel : (DomTreeNode.nodes root).length ≤ fuel)
    (hroot : root.getBlock = F.getEntryBlock)
    (hN : ((DomTreeNode.nodes root).map DomTreeNode.getBlock).Nodup) :
    ∃ R, buildRIV fuel F root = some R ∧
      ∀ P ∈ DomTreeNode.nodes root, ∀ B ∈ P.children, P.getBlock ∈ F.blocks →
        ∃ sP sB, Result.find R P.getBlock = some sP ∧ Result.find R B.getBlock = some sB ∧
          sP ∪ definedIn P.getBlock ⊆ sB := by
  obtain ⟨R, hR⟩ := buildRIV_returns fuel F root hfuel
  refine ⟨R, hR, fun P hP B hB hPF => ?_⟩
  have hBroot : B ∈ DomTreeNode.nodes root :=
    DomTreeNode.mem_nodes_trans root
      (DomTreeNode.mem_nodes_iff.2 (Or.inr ⟨B, hB, DomTreeNode.self_mem_nodes B⟩)) hP
  refine ⟨_, _, buildRIV_find_of_mem fuel F root R hR P hP,
    buildRIV_find_of_mem fuel F root R hR B hBroot, ?_⟩
  rw [(buildRIV_equations fuel F root R hR hroot hN).2 P hP B hB, if_pos hPF]

/-- Witness of C1 on the diamond. -/
theorem buildRIV_monotone_inheritance_witness :
    ((DomTreeNode.nodes diamondTree).length ≤ 4 ∧
      diamondTree.getBlock = diamondF.getEntryBlock ∧
      ((DomTreeNode.nodes diamondTree).map DomTreeNode.getBlock).Nodup) ∧
    ∃ R, buildRIV 4 diamondF diamondTree = some R ∧
      ∀ P ∈ DomTreeNode.nodes diamondTree, ∀ B ∈ P.children, P.getBlock ∈ diamondF.blocks →
        ∃ sP sB, Result.find R P.getBlock = some sP ∧ Result.find R B.getBlock = some sB ∧
          sP ∪ definedIn P.getBlock ⊆ sB :=
  ⟨⟨by decide, by decide, by decide⟩,
    buildRIV_monotone_inheritance 4 diamondF diamondTree (by decide) (by decide) (by decide)⟩

/-- C2 (entry seed is exact). When the entry block is not the block of a node below the
root, as in every dominator tree rooted at the entry block, `buildRIV` returns a map whose
set for the entry block consists of exactly the globals of integer value type and the
arguments of integer type; it holds no instruction; and when the function has no globals
and exactly two arguments, both of integer type, the set is the pair of the two. -/
theorem buildRIV_entry_seed_exact (fuel : Nat) (F : Function) (root : DomTreeNode)
    (hfuel : (DomTreeNode.nodes root).length ≤ fuel)
    (hfresh : F.getEntryBlock ∉ DomTreeNode.blocksOf root.children) :
    ∃ R s, buildRIV fuel F root = some R ∧ Result.find R F.getEntryBlock = some s ∧
      (∀ v, v ∈ s ↔
        ((∃ G ∈ F.globals, G.valueType.isIntegerTy = true ∧ v = Value.global G) ∨
         (∃ A ∈ F.args, A.type.isIntegerTy = true ∧ v = Value.argument A))) ∧
      (∀ I : Instruction, Value.instruction I ∉ s) ∧
      (∀ a1 a2 : Argument, F.globals = [] → F.args = [a1, a2] →
        a1.type.isIntegerTy = true → a2.type.isIntegerTy = true →
        s = {Value.argument a1, Value.argument a2}) := by
  obtain ⟨R, hR⟩ := buildRIV_returns fuel F root hfuel
  refine ⟨R, seed F, hR, buildRIV_entry fuel F root R hR hfresh, fun v => mem_seed, ?_, ?_⟩
  · intro I hI
    rcases mem_seed.1 hI with ⟨G, _, _, e⟩ | ⟨A, _, _, e⟩ <;> cases e
  · intro a1 a2 hg ha h1 h2
    ext v
    simp [seed, hg, ha, List.filter_cons, h1, h2]

/-- Witness of C2 on the single-block function with two integer parameters. -/
theorem buildRIV_entry_seed_exact_witness :
    ((DomTreeNode.nodes singleTree).length ≤ 1 ∧
      singleF.getEntryBlock ∉ DomTreeNode.blocksOf singleTree.children) ∧
    ∃ R s, buildRIV 1 singleF singleTree = some R ∧
      Result.find R singleF.getEntryBlock = some s ∧
      (∀ v, v ∈ s ↔
        ((∃ G ∈ singleF.globals, G.valueType.isIntegerTy = true ∧ v = Value.global G) ∨
         (∃ A ∈ singleF.args, A.type.isIntegerTy = true ∧ v = Value.argument A))) ∧
      (∀ I : Instruction, Value.instruction I ∉ s) ∧
      (∀ a1 a2 : Argument, singleF.globals = [] → singleF.args = [a1, a2] →
        a1.type.isIntegerTy = true → a2.type.isIntegerTy = true →
        s = {Value.argument a1, Value.argument a2}) :=
  ⟨⟨by decide, by decide⟩,
    buildRIV_entry_seed_exact 1 singleF singleTree (by decide) (by decide)⟩

/-- C3 (closed form). For every function and every dominator tree rooted at the entry
block, over blocks of the function and with no block in two nodes, `buildRIV` returns a
map in which the set of every tree node `M` holds exactly the seed (integer globals and
integer arguments) and the integer-typed instructions of the nodes of which `M` is a proper
descendant; in particular a child of the root holds the seed and the integer-typed
instructions of the entry block. -/
theorem buildRIV_closed_form (fuel : Nat) (F : Function) (root : DomTreeNode)
    (hfuel : (DomTreeNode.nodes root).length ≤ fuel)
    (hroot : root.getBlock = F.getEntryBlock)
    (hN : ((DomTreeNode.nodes root).map DomTreeNode.getBlock).Nodup)
    (hin : ∀ n ∈ DomTreeNode.nodes root, n.getBlock ∈ F.blocks) :
    ∃ R, buildRIV fuel F root = some R ∧
      (∀ M ∈ DomTreeNode.nodes root, ∃ s, Result.find R M.getBlock = some s ∧
        ∀ v, v ∈ s ↔
          (v ∈ seed F ∨
            ∃ A ∈ DomTreeNode.nodes root, M ∈ DomTreeNode.nodesList A.children ∧
              v ∈ definedIn A.getBlock)) ∧
      (∀ C ∈ root.children,
        Result.find R C.getBlock = some (seed F ∪ definedIn F.getEntryBlock)) := by
  obtain ⟨R, hR⟩ := buildRIV_returns fuel F root hfuel
  obtain ⟨hseed, hE⟩ := buildRIV_equations fuel F root R hR hroot hN
  have hE2 : ∀ P ∈ DomTreeNode.nodes root, ∀ C ∈ P.children,
      Result.get R C.getBlock = Result.get R P.getBlock ∪ definedIn P.getBlock := by
    intro P hP C hC
    rw [hE P hP C hC, if_pos (hin P hP)]
  refine ⟨R, hR, fun M hM => ⟨_, buildRIV_find_of_mem fuel F root R hR M hM, fun v => ?_⟩,
    fun C hC => ?_⟩
  · constructor
    · intro hv
      rcases ancestors_cover (fun b => Result.get R b) definedIn root hE2 v root
        (DomTreeNode.self_mem_nodes root) M hM hv with h | h
      · exact Or.inl (hseed ▸ h)
      · exact Or.inr h
    · rintro (hv | ⟨A, hA, hMA, hv⟩)
      · rcases DomTreeNode.mem_nodes_iff.1 hM with hMr | hlow
        · rw [hMr, hseed]; exact hv
        · exact descendants_superset (fun b => Result.get R b) definedIn root hE2 root
            (DomTreeNode.self_mem_nodes root) M (mem_properDescendants.2 hlow)
            (Finset.mem_union_left _ (by show v ∈ Result.get R root.getBlock; rw [hseed]; exact hv))
      · exact descendants_superset (fun b => Result.get R b) definedIn root hE2 A hA M hMA
          (Finset.mem_union_right _ hv)
  · have hCroot : C ∈ DomTreeNode.nodes root :=
      DomTreeNode.mem_nodes_iff.2 (Or.inr ⟨C, hC, DomTreeNode.self_mem_nodes C⟩)
    rw [buildRIV_find_of_mem fuel F root R hR C hCroot,
      hE2 root (DomTreeNode.self_mem_nodes root) C hC, hseed, hroot]

/-- Witness of C3 on the diamond. -/
theorem buildRIV_closed_form_witness :
    ((DomTreeNode.nodes diamondTree).length ≤ 4 ∧
      diamondTree.getBlock = diamondF.getEntryBlock ∧
      ((DomTreeNode.nodes diamondTree).map DomTreeNode.getBlock).Nodup ∧
      ∀ b ∈ (DomTreeNode.nodes diamondTree).map DomTreeNode.getBlock, b ∈ diamondF.blocks) ∧
    ∃ R, buildRIV 4 diamondF diamondTree = some R ∧
      (∀ M ∈ DomTreeNode.nodes diamondTree, ∃ s, Result.find R M.getBlock = some s ∧
        ∀ v, v ∈ s ↔
          (v ∈ seed diamondF ∨
            ∃ A ∈ DomTreeNode.nodes diamondTree, M ∈ DomTreeNode.nodesList A.children ∧
              v ∈ definedIn A.getBlock)) ∧
      (∀ C ∈ diamondTree.children,
        Result.find R C.getBlock = some (seed diamondF ∪ definedIn diamondF.getEntryBlock)) :=
  ⟨⟨by decide, by decide, by decide, by decide⟩,
    buildRIV_closed_form 4 diamondF diamondTree (by decide) (by decide) (by decide)
      (fun n hn => (by decide : ∀ b ∈ (DomTreeNode.nodes diamondTree).map DomTreeNode.getBlock,
        b ∈ diamondF.blocks) _ (List.mem_map.2 ⟨n, hn, rfl⟩))⟩

/-- C4 (own-definition exclusion). Let no instruction belong to two different blocks of the
function (an instruction is never a global or an argument: the three kinds of value are
distinct). For every dominator tree rooted at the entry block with no block in two nodes,
every tree node `P` whose block is a block of the function and every integer-typed
instruction `I` of `P`: `I` is not in the set of `P`, and it is in the set of every child
of `P`. -/
theorem buildRIV_own_definition_exclusion (fuel : Nat) (F : Function) (root : DomTreeNode)
    (hfuel : (DomTreeNode.nodes root).length ≤ fuel)
    (hroot : root.getBlock = F.getEntryBlock)
    (hN : ((DomTreeNode.nodes root).map DomTreeNode.getBlock).Nodup)
    (hone : ∀ B1 ∈ F.blocks, ∀ B2 ∈ F.blocks, ∀ I ∈ B1.insts, I ∈ B2.insts → B1 = B2) :
    ∃ R, buildRIV fuel F root = some R ∧
      ∀ P ∈ DomTreeNode.nodes root, P.getBlock ∈ F.blocks →
        ∀ I ∈ P.getBlock.insts, I.type.isIntegerTy = true →
          (∃ s, Result.find R P.getBlock = some s ∧ Value.instruction I ∉ s) ∧
          (∀ C ∈ P.children, ∃ s, Result.find R C.getBlock = some s ∧
            Value.instruction I ∈ s) := by
  obtain ⟨R, hR⟩ := buildRIV_returns fuel F root hfuel
  obtain ⟨hseed, hE⟩ := buildRIV_equations fuel F root R hR hroot hN
  refine ⟨R, hR, fun P hP hPF I hI hT => ⟨⟨_, buildRIV_find_of_mem fuel F root R hR P hP, ?_⟩,
    fun C hC => ?_⟩⟩
  · intro hv
    rcases ancestors_cover (fun b => Result.get R b)
      (fun b => if b ∈ F.blocks then definedIn b else ∅) root hE (Value.instruction I) root
      (DomTreeNode.self_mem_nodes root) P hP hv with h | ⟨A, hA, hPA, hvA⟩
    · rw [hseed] at h
      rcases mem_seed.1 h with ⟨G, _, _, e⟩ | ⟨A, _, _, e⟩ <;> cases e
    · by_cases hAF : A.getBlock ∈ F.blocks
      · simp only [hAF, if_true] at hvA
        obtain ⟨J, hJ, _, e⟩ := mem_definedIn.1 hvA
        cases e
        exact block_ne_of_properDescendant root hN A hA P hPA
          (hone _ hAF _ hPF I hJ hI)
      · simp [hAF] at hvA
  · have hCroot : C ∈ DomTreeNode.nodes root :=
      DomTreeNode.mem_nodes_trans root
        (DomTreeNode.mem_nodes_iff.2 (Or.inr ⟨C, hC, DomTreeNode.self_mem_nodes C⟩)) hP
    refine ⟨_, buildRIV_find_of_mem fuel F root R hR C hCroot, ?_⟩
    rw [hE P hP C hC, if_pos hPF]
    exact Finset.mem_union_right _ (mem_definedIn.2 ⟨I, hI, hT, rfl⟩)

/-- Witness of C4 on the diamond. -/
theorem buildRIV_own_definition_exclusion_witness :
    ((DomTreeNode.nodes diamondTree).length ≤ 4 ∧
      diamondTree.getBlock = diamondF.getEntryBlock ∧
      ((DomTreeNode.nodes diamondTree).map DomTreeNode.getBlock).Nodup ∧
      ∀ B1 ∈ diamondF.blocks, ∀ B2 ∈ diamondF.blocks, ∀ I ∈ B1.insts,
        I ∈ B2.insts → B1 = B2) ∧
    ∃ R, buildRIV 4 diamondF diamondTree = some R ∧
      ∀ P ∈ DomTreeNode.nodes diamondTree, P.getBlock ∈ diamondF.blocks →
        ∀ I ∈ P.getBlock.insts, I.type.isIntegerTy = true →
          (∃ s, Result.find R P.getBlock = some s ∧ Value.instruction I ∉ s) ∧
          (∀ C ∈ P.children, ∃ s, Result.find R C.getBlock = some s ∧
            Value.instruction I ∈ s) :=
  ⟨⟨by decide, by decide, by decide, by decide⟩,
    buildRIV_own_definition_exclusion 4 diamondF diamondTree (by decide) (by decide)
      (by decide) (by decide)⟩

/-- C5 (unreached blocks have no entry). For every function and every dominator tree
rooted at the entry block, a block of the function that is the block of no tree node is
not a key of the map returned by `buildRIV`: its lookup yields `none`, although the map of
definitions built by STEP 1 has an entry for it. -/
theorem buildRIV_unreached_absent (fuel : Nat) (F : Function) (root : DomTreeNode)
    (hfuel : (DomTreeNode.nodes root).length ≤ fuel)
    (hroot : root.getBlock = F.getEntryBlock) :
    ∃ R, buildRIV fuel F root = some R ∧
      ∀ b ∈ F.blocks, b ∉ (DomTreeNode.nodes root).map DomTreeNode.getBlock →
        Result.find R b = none ∧ b ∉ Result.keys R ∧
        ∃ s, Result.find (collectDefs F.blocks []) b = some s := by
  obtain ⟨R, hR⟩ := buildRIV_returns fuel F root hfuel
  refine ⟨R, hR, fun b hb hnot => ?_⟩
  have hk := buildRIV_keys fuel F root R hR b
  have hne : ¬ (b = F.getEntryBlock ∨ b ∈ (DomTreeNode.nodes root).map DomTreeNode.getBlock) := by
    rintro (e | e)
    · apply hnot
      rw [e, ← hroot]
      exact List.mem_map.2 ⟨root, DomTreeNode.self_mem_nodes root, rfl⟩
    · exact hnot e
  have hnone : Result.find R b = none := by
    cases hf : Result.find R b with
    | none => rfl
    | some s => exact absurd (hk.1 (by rw [hf]; rfl)) hne
  refine ⟨hnone, ?_, ?_⟩
  · rw [Result.mem_keys_iff, hnone]; simp
  · rw [find_collectDefs, if_pos hb]; exact ⟨_, rfl⟩

/-- Witness of C5 on the diamond, whose dead block has no node in the tree. -/
theorem buildRIV_unreached_absent_witness :
    ((DomTreeNode.nodes diamondTree).length ≤ 4 ∧
      diamondTree.getBlock = diamondF.getEntryBlock ∧
      diamondDead ∈ diamondF.blocks ∧
      diamondDead ∉ (DomTreeNode.nodes diamondTree).map DomTreeNode.getBlock) ∧
    ∃ R, buildRIV 4 diamondF diamondTree = some R ∧
      ∀ b ∈ diamondF.blocks, b ∉ (DomTreeNode.nodes diamondTree).map DomTreeNode.getBlock →
        Result.find R b = none ∧ b ∉ Result.keys R ∧
        ∃ s, Result.find (collectDefs diamondF.blocks []) b = some s :=
  ⟨⟨by decide, by decide, by decide, by decide⟩,
    buildRIV_unreached_absent 4 diamondF diamondTree (by decide) (by decide)⟩

/-- C6 (coverage). For every function and every dominator tree, `buildRIV`, given one
iteration per tree node, returns a map of which the block of every tree node is a key,
leaves and blocks with an empty set included. -/
theorem buildRIV_coverage (fuel : Nat) (F : Function) (root : DomTreeNode)
    (hfuel : (DomTreeNode.nodes root).length ≤ fuel) :
    ∃ R, buildRIV fuel F root = some R ∧
      ∀ n ∈ DomTreeNode.nodes root,
        n.getBlock ∈ Result.keys R ∧ ∃ s, Result.find R n.getBlock = some s := by
  obtain ⟨R, hR⟩ := buildRIV_returns fuel F root hfuel
  refine ⟨R, hR, fun n hn => ?_⟩
  have hf := buildRIV_find_of_mem fuel F root R hR n hn
  refine ⟨?_, _, hf⟩
  rw [Result.mem_keys_iff, hf]; rfl

/-- Witness of C6 on the diamond. -/
theorem buildRIV_coverage_witness :
    (DomTreeNode.nodes diamondTree).length ≤ 4 ∧
    ∃ R, buildRIV 4 diamondF diamondTree = some R ∧
      ∀ n ∈ DomTreeNode.nodes diamondTree,
        n.getBlock ∈ Result.keys R ∧ ∃ s, Result.find R n.getBlock = some s :=
  ⟨by decide, buildRIV_coverage 4 diamondF diamondTree (by decide)⟩

/-- C7 (type filtering). For every function and every dominator tree, every value in any
set of the map returned by `buildRIV` is a global of the module whose value type is an
integer type, an argument of the function of integer type, or an instruction of integer
type of a block of the function; hence a global, an argument or an instruction that is not
integer-typed is in no set. -/
theorem buildRIV_type_filter (fuel : Nat) (F : Function) (root : DomTreeNode)
    (hfuel : (DomTreeNode.nodes root).length ≤ fuel) :
    ∃ R, buildRIV fuel F root = some R ∧
      ∀ b s, Result.find R b = some s →
        (∀ v ∈ s,
          (∃ G ∈ F.globals, G.valueType.isIntegerTy = true ∧ v = Value.global G) ∨
          (∃ A ∈ F.args, A.type.isIntegerTy = true ∧ v = Value.argument A) ∨
          (∃ B ∈ F.blocks, ∃ I ∈ B.insts, I.type.isIntegerTy = true ∧
            v = Value.instruction I)) ∧
        (∀ G : GlobalVariable, G.valueType.isIntegerTy = false → Value.global G ∉ s) ∧
        (∀ A : Argument, A.type.isIntegerTy = false → Value.argument A ∉ s) ∧
        (∀ I : Instruction, I.type.isIntegerTy = false → Value.instruction I ∉ s) := by
  obtain ⟨R, hR⟩ := buildRIV_returns fuel F root hfuel
  have hall : ∀ b, ∀ v ∈ Result.get R b,
      (∃ G ∈ F.globals, G.valueType.isIntegerTy = true ∧ v = Value.global G) ∨
      (∃ A ∈ F.args, A.type.isIntegerTy = true ∧ v = Value.argument A) ∨
      (∃ B ∈ F.blocks, ∃ I ∈ B.insts, I.type.isIntegerTy = true ∧
        v = Value.instruction I) := by
    have hR2 := hR
    unfold buildRIV at hR2
    refine loop_closed _ _ _ _ _ _ hR2 ?_ ?_
    · intro b v hv
      rw [get_collectDefs] at hv
      by_cases hb : b ∈ F.blocks
      · rw [if_pos hb] at hv
        obtain ⟨I, hI, hT, e⟩ := mem_definedIn.1 hv
        exact Or.inr (Or.inr ⟨b, hb, I, hI, hT, e⟩)
      · rw [if_neg hb] at hv; simp at hv
    · intro b v hv
      rw [Result.get, find_entry_seed] at hv
      by_cases hb : F.getEntryBlock = b
      · rw [if_pos hb] at hv
        rcases mem_seed.1 hv with h | h
        · exact Or.inl h
        · exact Or.inr (Or.inl h)
      · rw [if_neg hb] at hv; simp at hv
  refine ⟨R, hR, fun b s hs => ?_⟩
  have hs2 : Result.get R b = s := by simp [Result.get, hs]
  have hall2 : ∀ v ∈ s, _ := fun v hv => hall b v (hs2 ▸ hv)
  refine ⟨hall2, ?_, ?_, ?_⟩
  · intro G hG hmem
    rcases hall2 _ hmem with ⟨G2, _, hT, e⟩ | ⟨A, _, _, e⟩ | ⟨B, _, I, _, _, e⟩
    · cases e; rw [hG] at hT; cases hT
    · cases e
    · cases e
  · intro A hA hmem
    rcases hall2 _ hmem with ⟨G2, _, _, e⟩ | ⟨A2, _, hT, e⟩ | ⟨B, _, I, _, _, e⟩
    · cases e
    · cases e; rw [hA] at hT; cases hT
    · cases e
  · intro I hI hmem
    rcases hall2 _ hmem with ⟨G2, _, _, e⟩ | ⟨A2, _, _, e⟩ | ⟨B, _, I2, _, hT, e⟩
    · cases e
    · cases e
    · cases e; rw [hI] at hT; cases hT

/-- Witness of C7 on the diamond, which has a pointer global and a floating-point
argument. -/
theorem buildRIV_type_filter_witness :
    (DomTreeNode.nodes diamondTree).length ≤ 4 ∧
    ∃ R, buildRIV 4 diamondF diamondTree = some R ∧
      ∀ b s, Result.find R b = some s →
        (∀ v ∈ s,
          (∃ G ∈ diamondF.globals, G.valueType.isIntegerTy = true ∧ v = Value.global G) ∨
          (∃ A ∈ diamondF.args, A.type.isIntegerTy = true ∧ v = Value.argument A) ∨
          (∃ B ∈ diamondF.blocks, ∃ I ∈ B.insts, I.type.isIntegerTy = true ∧
            v = Value.instruction I)) ∧
        (∀ G : GlobalVariable, G.valueType.isIntegerTy = false → Value.global G ∉ s) ∧
        (∀ A : Argument, A.type.isIntegerTy = false → Value.argument A ∉ s) ∧
        (∀ I : Instruction, I.type.isIntegerTy = false → Value.instruction I ∉ s) :=
  ⟨by decide, buildRIV_type_filter 4 diamondF diamondTree (by decide)⟩

/-- C8 (definition collector). The map built by STEP 1 has an entry for every block of the
function, also for a block without integer instruction, and the set of a block consists
of exactly the instructions of that block whose type is an integer type; when no
instruction occurs in two different blocks, the sets of two different blocks are
disjoint. -/
theorem collectDefs_exact (F : Function) :
    (∀ B ∈ F.blocks, ∃ s, Result.find (collectDefs F.blocks []) B = some s ∧
      ∀ v, v ∈ s ↔ ∃ I ∈ B.insts, I.type.isIntegerTy = true ∧ v = Value.instruction I) ∧
    ((∀ B1 ∈ F.blocks, ∀ B2 ∈ F.blocks, ∀ I ∈ B1.insts, I ∈ B2.insts → B1 = B2) →
      ∀ B1 ∈ F.blocks, ∀ B2 ∈ F.blocks, B1 ≠ B2 →
        ∀ s1 s2, Result.find (collectDefs F.blocks []) B1 = some s1 →
          Result.find (collectDefs F.blocks []) B2 = some s2 → Disjoint s1 s2) := by
  have hfind : ∀ B ∈ F.blocks,
      Result.find (collectDefs F.blocks []) B = some (definedIn B) := by
    intro B hB
    rw [find_collectDefs, if_pos hB]
    simp [Result.get, Result.find]
  refine ⟨fun B hB => ⟨_, hfind B hB, fun v => mem_definedIn⟩, ?_⟩
  intro hone B1 h1 B2 h2 hne s1 s2 hs1 hs2
  rw [hfind B1 h1] at hs1
  rw [hfind B2 h2] at hs2
  cases hs1; cases hs2
  rw [Finset.disjoint_left]
  intro v hv1 hv2
  obtain ⟨I, hI, _, e⟩ := mem_definedIn.1 hv1
  obtain ⟨J, hJ, _, e2⟩ := mem_definedIn.1 hv2
  subst e; cases e2
  exact hne (hone B1 h1 B2 h2 I hI hJ)

/-- C9, refuted as stated: in the diamond the entry block defines the integer value `c`,
and `buildRIV` gives the join block a set that differs from the set of the entry
block. -/
theorem buildRIV_diamond_counterexample :
    diamondTree = .mk diamondB0 [.mk diamondB1 [], .mk diamondB2 [], .mk diamondB3 []] ∧
    diamondTree.getBlock = diamondF.getEntryBlock ∧
    (diamondY ∈ diamondB1.insts ∧ diamondY.type.isIntegerTy = true) ∧
    (diamondZ ∈ diamondB2.insts ∧ diamondZ.type.isIntegerTy = true) ∧
    ∃ R, buildRIV 4 diamondF diamondTree = some R ∧
      Result.find R diamondB3 ≠ Result.find R diamondB0 :=
  ⟨rfl, by decide, by decide, by decide, _, rfl, by decide⟩

/-- C9, amended (diamond). For every function whose dominator tree has the entry block
`B0` as root with exactly three children, for `B1`, `B2` and the join block `B3`, no block
being in two nodes, `buildRIV` gives `B3` the set of `B0` together with the integer-typed
instructions of `B0`; this is the set of `B0` exactly when `B0` has no integer-typed
instruction; and an instruction of `B1` or of `B2` that is not an instruction of `B0` is
not in the set of `B3`. -/
theorem buildRIV_diamond (fuel : Nat) (F : Function) (B0 : BasicBlock)
    (n1 n2 n3 : DomTreeNode)
    (hfuel : (DomTreeNode.nodes (.mk B0 [n1, n2, n3])).length ≤ fuel)
    (hroot : B0 = F.getEntryBlock)
    (hN : ((DomTreeNode.nodes (.mk B0 [n1, n2, n3])).map DomTreeNode.getBlock).Nodup) :
    ∃ R s0, buildRIV fuel F (.mk B0 [n1, n2, n3]) = some R ∧
      Result.find R B0 = some s0 ∧
      Result.find R n3.getBlock = some (s0 ∪ definedIn B0) ∧
      (Result.find R n3.getBlock = Result.find R B0 ↔ definedIn B0 = ∅) ∧
      (∀ y ∈ n1.getBlock.insts, y ∉ B0.insts → Value.instruction y ∉ s0 ∪ definedIn B0) ∧
      (∀ z ∈ n2.getBlock.insts, z ∉ B0.insts → Value.instruction z ∉ s0 ∪ definedIn B0) := by
  obtain ⟨R, hR⟩ := buildRIV_returns fuel F _ hfuel
  obtain ⟨hseed, hE⟩ := buildRIV_equations fuel F _ R hR hroot hN
  have hrootmem := DomTreeNode.self_mem_nodes (.mk B0 [n1, n2, n3])
  have h0 := buildRIV_find_of_mem fuel F _ R hR _ hrootmem
  have hB0F : B0 ∈ F.blocks := by rw [hroot]; exact List.mem_cons_self _ _
  have hn3 : n3 ∈ (DomTreeNode.mk B0 [n1, n2, n3]).children := by
    simp [DomTreeNode.children]
  have hn3root : n3 ∈ DomTreeNode.nodes (.mk B0 [n1, n2, n3]) :=
    DomTreeNode.mem_nodes_iff.2 (Or.inr ⟨n3, hn3, DomTreeNode.self_mem_nodes n3⟩)
  have h3 := buildRIV_find_of_mem fuel F _ R hR _ hn3root
  have e3 := hE _ hrootmem n3 hn3
  have hb0 : (DomTreeNode.mk B0 [n1, n2, n3]).getBlock = B0 := rfl
  rw [hb0] at h0 hseed e3
  rw [if_pos hB0F] at e3
  have hnoinst : ∀ I, I ∉ B0.insts →
      Value.instruction I ∉ Result.get R B0 ∪ definedIn B0 := by
    intro I hI hmem
    rcases Finset.mem_union.1 hmem with h | h
    · rw [hseed] at h
      rcases mem_seed.1 h with ⟨G, _, _, e⟩ | ⟨A, _, _, e⟩ <;> cases e
    · obtain ⟨J, hJ, _, e⟩ := mem_definedIn.1 h
      cases e; exact hI hJ
  refine ⟨R, Result.get R B0, hR, h0, by rw [h3, e3], ?_, fun y _ hy => hnoinst y hy,
    fun z _ hz => hnoinst z hz⟩
  rw [h3, e3, h0]
  constructor
  · intro e
    have e2 : Result.get R B0 ∪ definedIn B0 = Result.get R B0 := Option.some.inj e
    rw [Finset.eq_empty_iff_forall_not_mem]
    intro v hv
    have hv2 : v ∈ Result.get R B0 := e2 ▸ Finset.mem_union_right _ hv
    rw [hseed] at hv2
    obtain ⟨J, _, _, ej⟩ := mem_definedIn.1 hv
    subst ej
    rcases mem_seed.1 hv2 with ⟨G, _, _, e⟩ | ⟨A, _, _, e⟩ <;> cases e
  · intro e
    rw [e, Finset.union_empty]

/-- Witness of the amended C9 on the diamond. -/
theorem buildRIV_diamond_witness :
    ((DomTreeNode.nodes
        (.mk diamondB0 [.mk diamondB1 [], .mk diamondB2 [], .mk diamondB3 []])).length ≤ 4 ∧
      diamondB0 = diamondF.getEntryBlock ∧
      ((DomTreeNode.nodes
        (.mk diamondB0 [.mk diamondB1 [], .mk diamondB2 [], .mk diamondB3 []])).map
          DomTreeNode.getBlock).Nodup) ∧
    ∃ R s0, buildRIV 4 diamondF
        (.mk diamondB0 [.mk diamondB1 [], .mk diamondB2 [], .mk diamondB3 []]) = some R ∧
      Result.find R diamondB0 = some s0 ∧
      Result.find R (DomTreeNode.mk diamondB3 []).getBlock = some (s0 ∪ definedIn diamondB0) ∧
      (Result.find R (DomTreeNode.mk diamondB3 []).getBlock = Result.find R diamondB0 ↔
        definedIn diamondB0 = ∅) ∧
      (∀ y ∈ (DomTreeNode.mk diamondB1 []).getBlock.insts, y ∉ diamondB0.insts →
        Value.instruction y ∉ s0 ∪ definedIn diamondB0) ∧
      (∀ z ∈ (DomTreeNode.mk diamondB2 []).getBlock.insts, z ∉ diamondB0.insts →
        Value.instruction z ∉ s0 ∪ definedIn diamondB0) :=
  ⟨⟨by decide, by decide, by decide⟩,
    buildRIV_diamond 4 diamondF diamondB0 (.mk diamondB1 []) (.mk diamondB2 [])
      (.mk diamondB3 []) (by decide) (by decide) (by decide)⟩

/-- C10 (visibility to all descendants). For every function and every dominator tree
rooted at the entry block, over blocks of the function and with no block in two nodes,
`buildRIV` returns a map in which, for every tree node `A` and every node `B` strictly
below `A`, the set of `B` includes the set of `A` and the integer-typed instructions of
`A`; and the set of every tree node holds every global of integer value type and every
argument of integer type. -/
theorem buildRIV_visible_to_descendants (fuel : Nat) (F : Function) (root : DomTreeNode)
    (hfuel : (DomTreeNode.nodes root).length ≤ fuel)
    (hroot : root.getBlock = F.getEntryBlock)
    (hN : ((DomTreeNode.nodes root).map DomTreeNode.getBlock).Nodup)
    (hin : ∀ n ∈ DomTreeNode.nodes root, n.getBlock ∈ F.blocks) :
    ∃ R, buildRIV fuel F root = some R ∧
      (∀ A ∈ DomTreeNode.nodes root, ∀ B ∈ DomTreeNode.nodesList A.children,
        ∃ sA sB, Result.find R A.getBlock = some sA ∧ Result.find R B.getBlock = some sB ∧
          sA ∪ definedIn A.getBlock ⊆ sB) ∧
      (∀ B ∈ DomTreeNode.nodes root, ∃ sB, Result.find R B.getBlock = some sB ∧
        (∀ G ∈ F.globals, G.valueType.isIntegerTy = true → Value.global G ∈ sB) ∧
        (∀ A ∈ F.args, A.type.isIntegerTy = true → Value.argument A ∈ sB)) := by
  obtain ⟨R, hR⟩ := buildRIV_returns fuel F root hfuel
  obtain ⟨hseed, hE⟩ := buildRIV_equations fuel F root R hR hroot hN
  have hE2 : ∀ P ∈ DomTreeNode.nodes root, ∀ C ∈ P.children,
      Result.get R C.getBlock = Result.get R P.getBlock ∪ definedIn P.getBlock := by
    intro P hP C hC
    rw [hE P hP C hC, if_pos (hin P hP)]
  have hsup := descendants_superset (fun b => Result.get R b) definedIn root hE2
  have hseedsub : ∀ B ∈ DomTreeNode.nodes root, seed F ⊆ Result.get R B.getBlock := by
    intro B hB v hv
    rcases DomTreeNode.mem_nodes_iff.1 hB with hBr | hlow
    · rw [hBr, hseed]; exact hv
    · exact hsup root (DomTreeNode.self_mem_nodes root) B (mem_properDescendants.2 hlow)
        (Finset.mem_union_left _ (by show v ∈ Result.get R root.getBlock; rw [hseed]; exact hv))
  refine ⟨R, hR, fun A hA B hB => ?_, fun B hB => ?_⟩
  · have hBroot : B ∈ DomTreeNode.nodes root :=
      DomTreeNode.mem_nodes_trans root (properDescendant_mem_nodes hB) hA
    exact ⟨_, _, buildRIV_find_of_mem fuel F root R hR A hA,
      buildRIV_find_of_mem fuel F root R hR B hBroot, hsup A hA B hB⟩
  · refine ⟨_, buildRIV_find_of_mem fuel F root R hR B hB, fun G hG hT => ?_,
      fun A hA hT => ?_⟩
    · exact hseedsub B hB (mem_seed.2 (Or.inl ⟨G, hG, hT, rfl⟩))
    · exact hseedsub B hB (mem_seed.2 (Or.inr ⟨A, hA, hT, rfl⟩))

/-- Witness of C10 on the diamond. -/
theorem buildRIV_visible_to_descendants_witness :
    ((DomTreeNode.nodes diamondTree).length ≤ 4 ∧
      diamondTree.getBlock = diamondF.getEntryBlock ∧
      ((DomTreeNode.nodes diamondTree).map DomTreeNode.getBlock).Nodup ∧
      ∀ b ∈ (DomTreeNode.nodes diamondTree).map DomTreeNode.getBlock, b ∈ diamondF.blocks) ∧
    ∃ R, buildRIV 4 diamondF diamondTree = some R ∧
      (∀ A ∈ DomTreeNode.nodes diamondTree, ∀ B ∈ DomTreeNode.nodesList A.children,
        ∃ sA sB, Result.find R A.getBlock = some sA ∧ Result.find R B.getBlock = some sB ∧
          sA ∪ definedIn A.getBlock ⊆ sB) ∧
      (∀ B ∈ DomTreeNode.nodes diamondTree, ∃ sB, Result.find R B.getBlock = some sB ∧
        (∀ G ∈ diamondF.globals, G.valueType.isIntegerTy = true → Value.global G ∈ sB) ∧
        (∀ A ∈ diamondF.args, A.type.isIntegerTy = true → Value.argument A ∈ sB)) :=
  ⟨⟨by decide, by decide, by decide, by decide⟩,
    buildRIV_visible_to_descendants 4 diamondF diamondTree (by decide) (by decide)
      (by decide)
      (fun n hn => (by decide : ∀ b ∈ (DomTreeNode.nodes diamondTree).map DomTreeNode.getBlock,
        b ∈ diamondF.blocks) _ (List.mem_map.2 ⟨n, hn, rfl⟩))⟩

/-! ## Independence of the order of the traversal -/

theorem nodesList_perm {w w' : List DomTreeNode} (h : List.Perm w w') :
    List.Perm (DomTreeNode.nodesList w) (DomTreeNode.nodesList w') := by
  induction h with
  | nil => exact List.Perm.refl _
  | cons x _ ih =>
    simp only [DomTreeNode.nodesList]
    exact List.Perm.append_left _ ih
  | swap x y l =>
    simp only [DomTreeNode.nodesList]
    exact List.perm_append_comm_assoc _ _ _
  | trans _ _ ih1 ih2 => exact ih1.trans ih2

theorem blocksOf_perm {w w' : List DomTreeNode} (h : List.Perm w w') :
    List.Perm (DomTreeNode.blocksOf w) (DomTreeNode.blocksOf w') :=
  (nodesList_perm h).map _

/-- The relation `EquationsInv` does not depend on the order of the deque. -/
theorem equationsInv_perm (d : BasicBlock → ValueSet) {w w' : List DomTreeNode}
    (h : List.Perm w w') (D : DefValMapTy) (R Rf : Result)
    (hinv : EquationsInv d ⟨w, D, R⟩ Rf) : EquationsInv d ⟨w', D, R⟩ Rf := by
  intro hD hN hF
  obtain ⟨h1, h2⟩ := hinv hD ((blocksOf_perm h).nodup_iff.2 hN)
    (fun u hu b hb => hF u (h.mem_iff.1 hu) b hb)
  exact ⟨fun b hb => h1 b (fun u hu => hb u (h.mem_iff.1 hu)),
    fun P hP C hC => h2 P ((nodesList_perm h).mem_iff.2 hP) C hC⟩

theorem loopFIFO_nil (fuel : Nat) (D : DefValMapTy) (R : Result) :
    loopFIFO fuel ⟨[], D, R⟩ = some R := by
  cases fuel <;> rfl

/-- Induction along the iterations of the breadth-first loop. -/
theorem loopFIFO_induction (motive : LoopState → Result → Prop)
    (hnil : ∀ D R, motive ⟨[], D, R⟩ R)
    (hstep : ∀ w t D R Rfin, motive (loopBody t w D R) Rfin → motive ⟨t :: w, D, R⟩ Rfin) :
    ∀ fuel s Rfin, loopFIFO fuel s = some Rfin → motive s Rfin := by
  intro fuel
  induction fuel with
  | zero =>
    rintro ⟨w, D, R⟩ Rfin h
    cases w with
    | nil => rw [loopFIFO_nil] at h; cases h; exact hnil D R
    | cons t w => simp [loopFIFO] at h
  | succ fuel ih =>
    rintro ⟨w, D, R⟩ Rfin h
    cases w with
    | nil => rw [loopFIFO_nil] at h; cases h; exact hnil D R
    | cons t w =>
      simp only [loopFIFO] at h
      exact hstep w t D R Rfin (ih _ _ h)

theorem loopFIFO_terminates (fuel : Nat) :
    ∀ (w : List DomTreeNode) (D : DefValMapTy) (R : Result),
      (DomTreeNode.nodesList w).length ≤ fuel →
        ∃ Rfin, loopFIFO fuel ⟨w, D, R⟩ = some Rfin := by
  induction fuel with
  | zero =>
    intro w D R h
    cases w with
    | nil => exact ⟨R, loopFIFO_nil _ _ _⟩
    | cons t w => simp [DomTreeNode.nodesList, DomTreeNode.nodes_eq] at h
  | succ fuel ih =>
    intro w D R h
    cases w with
    | nil => exact ⟨R, loopFIFO_nil _ _ _⟩
    | cons t w =>
      simp only [loopFIFO]
      have hb := loopBody_work t w D R
      have : (DomTreeNode.nodesList (loopBody t w D R).BBsToProcess).length ≤ fuel := by
        rw [hb, DomTreeNode.nodesList_append]
        simp [DomTreeNode.nodesList, DomTreeNode.nodes_eq] at h ⊢
        omega
      exact ih _ _ _ this

theorem loopFIFO_keys (fuel : Nat) (w : List DomTreeNode) (D : DefValMapTy) (R Rfin : Result)
    (h : loopFIFO fuel ⟨w, D, R⟩ = some Rfin) (b : BasicBlock) :
    (Result.find Rfin b).isSome = true ↔
      ((Result.find R b).isSome = true ∨ b ∈ DomTreeNode.blocksOf w) := by
  refine loopFIFO_induction
    (fun s Rf => ∀ b, (Result.find Rf b).isSome = true ↔
      ((Result.find s.ResultMap b).isSome = true ∨ b ∈ DomTreeNode.blocksOf s.BBsToProcess))
    ?_ ?_ fuel _ _ h b
  · intro D R b
    simp [DomTreeNode.blocksOf, DomTreeNode.nodesList]
  · intro w t D R Rf ih b
    rw [ih b, loopBody_find, loopBody_work, DomTreeNode.blocksOf_append,
      DomTreeNode.blocksOf_cons]
    have hsub : b ∈ t.children.map DomTreeNode.getBlock →
        b ∈ DomTreeNode.blocksOf t.children := mem_children_blocks
    by_cases h1 : b ∈ t.children.map DomTreeNode.getBlock
    · have := hsub h1
      simp [h1, this]
    · by_cases h2 : t.getBlock = b
      · subst h2; simp [h1]
      · have h3 : ¬ b = t.getBlock := fun e => h2 e.symm
        simp only [h1, h2, if_false, List.mem_append, List.mem_cons, h3, false_or]
        tauto

theorem loopFIFO_equations (d : BasicBlock → ValueSet) (fuel : Nat) (w : List DomTreeNode)
    (D : DefValMapTy) (R Rfin : Result) (h : loopFIFO fuel ⟨w, D, R⟩ = some Rfin) :
    EquationsInv d ⟨w, D, R⟩ Rfin := by
  refine loopFIFO_induction (EquationsInv d) ?_ ?_ fuel _ _ h
  · intro D R _ _ _
    exact ⟨fun _ _ => rfl, fun P hP => by simp [DomTreeNode.nodesList] at hP⟩
  · intro w t D R Rf ih
    exact equationsInv_perm d (List.perm_append_singleton t w) D R Rf
      (equations_step d w t D R Rf ih)

theorem buildRIVFIFO_returns (fuel : Nat) (F : Function) (root : DomTreeNode)
    (hfuel : (DomTreeNode.nodes root).length ≤ fuel) :
    ∃ R, buildRIVFIFO fuel F root = some R := by
  unfold buildRIVFIFO
  exact loopFIFO_terminates fuel _ _ _ (by simpa [DomTreeNode.nodesList] using hfuel)

theorem buildRIVFIFO_keys (fuel : Nat) (F : Function) (root : DomTreeNode) (R : Result)
    (h : buildRIVFIFO fuel F root = some R) (b : BasicBlock) :
    (Result.find R b).isSome = true ↔
      (b = F.getEntryBlock ∨ b ∈ (DomTreeNode.nodes root).map DomTreeNode.getBlock) := by
  unfold buildRIVFIFO at h
  rw [loopFIFO_keys _ _ _ _ _ h b, find_entry_seed, blocksOf_singleton]
  by_cases e : F.getEntryBlock = b
  · simp [e]
  · have e2 : ¬ b = F.getEntryBlock := fun x => e x.symm
    simp [e, e2]

theorem buildRIVFIFO_equations (fuel : Nat) (F : Function) (root : DomTreeNode) (R : Result)
    (h : buildRIVFIFO fuel F root = some R) (hroot : root.getBlock = F.getEntryBlock)
    (hN : ((DomTreeNode.nodes root).map DomTreeNode.getBlock).Nodup) :
    Result.get R root.getBlock = seed F ∧
    ∀ P ∈ DomTreeNode.nodes root, ∀ C ∈ P.children,
      Result.get R C.getBlock =
        Result.get R P.getBlock ∪ (if P.getBlock ∈ F.blocks then definedIn P.getBlock else ∅) := by
  have hN1 : (DomTreeNode.blocksOf [root]).Nodup := by rw [blocksOf_singleton]; exact hN
  have hN2 := hN1
  rw [DomTreeNode.blocksOf_cons, List.nodup_cons] at hN2
  have hfresh : F.getEntryBlock ∉ DomTreeNode.blocksOf root.children := by
    intro hc; rw [← hroot] at hc
    exact hN2.1 (List.mem_append_left _ hc)
  unfold buildRIVFIFO at h
  have := loopFIFO_equations (fun b => if b ∈ F.blocks then definedIn b else ∅) _ _ _ _ _ h
    (get_collectDefs F) hN1
    (by
      intro u hu b hb
      rw [List.mem_singleton.1 hu] at hb
      rw [find_entry_seed]
      have : ¬ F.getEntryBlock = b := fun e => hfresh (e ▸ hb)
      simp [this])
  refine ⟨?_, fun P hP C hC => this.2 P (by simpa [DomTreeNode.nodesList] using hP) C hC⟩
  rw [this.1 root.getBlock (by intro u hu; rw [List.mem_singleton.1 hu, hroot]; exact hfresh),
    Result.get, find_entry_seed, if_pos hroot.symm]
  rfl

/-! ### Permuted children -/

theorem IsEdge_mk (b : BasicBlock) (cs : List DomTreeNode) (p q : BasicBlock) :
    IsEdge (.mk b cs) p q ↔
      ((p = b ∧ q ∈ cs.map DomTreeNode.getBlock) ∨ ∃ c ∈ cs, IsEdge c p q) := by
  unfold IsEdge
  constructor
  · rintro ⟨P, hP, C, hC, hp, hq⟩
    rcases DomTreeNode.mem_nodes_iff.1 hP with rfl | ⟨c, hc, hPc⟩
    · exact Or.inl ⟨hp.symm, List.mem_map.2 ⟨C, hC, hq⟩⟩
    · exact Or.inr ⟨c, hc, P, hPc, C, hC, hp, hq⟩
  · rintro (⟨hp, hq⟩ | ⟨c, hc, P, hPc, C, hC, hp, hq⟩)
    · obtain ⟨C, hC, hq⟩ := List.mem_map.1 hq
      exact ⟨.mk b cs, DomTreeNode.self_mem_nodes _, C, hC, hp.symm, hq⟩
    · exact ⟨P, DomTreeNode.mem_nodes_iff.2 (Or.inr ⟨c, hc, hPc⟩), C, hC, hp, hq⟩

theorem ChildrenPermuted.getBlock_eq {r r' : DomTreeNode} (h : ChildrenPermuted r r') :
    r'.getBlock = r.getBlock := by
  cases h <;> rfl

theorem nodes_blocks_mk (b : BasicBlock) (cs : List DomTreeNode) :
    (DomTreeNode.nodes (.mk b cs)).map DomTreeNode.getBlock = b :: DomTreeNode.blocksOf cs := by
  rw [DomTreeNode.nodes_eq]; rfl

theorem ChildrenPermuted.blocks_perm {r r' : DomTreeNode} (h : ChildrenPermuted r r') :
    List.Perm ((DomTreeNode.nodes r).map DomTreeNode.getBlock)
      ((DomTreeNode.nodes r').map DomTreeNode.getBlock) := by
  induction h with
  | atNode b cs cs' hp =>
    rw [nodes_blocks_mk, nodes_blocks_mk]
    exact (blocksOf_perm hp).cons b
  | inChild b pre post c c' _ ih =>
    rw [nodes_blocks_mk, nodes_blocks_mk]
    refine List.Perm.cons b ?_
    have e : ∀ x : DomTreeNode, DomTreeNode.blocksOf (pre ++ x :: post) =
        DomTreeNode.blocksOf pre ++
          ((DomTreeNode.nodes x).map DomTreeNode.getBlock ++ DomTreeNode.blocksOf post) := by
      intro x
      simp [DomTreeNode.blocksOf, DomTreeNode.nodesList_append, DomTreeNode.nodesList]
    rw [e, e]
    exact List.Perm.append_left _ (List.Perm.append_right _ ih)

theorem ChildrenPermuted.isEdge_iff {r r' : DomTreeNode} (h : ChildrenPermuted r r')
    (p q : BasicBlock) : IsEdge r p q ↔ IsEdge r' p q := by
  induction h with
  | atNode b cs cs' hp =>
    rw [IsEdge_mk, IsEdge_mk]
    have h1 : q ∈ cs.map DomTreeNode.getBlock ↔ q ∈ cs'.map DomTreeNode.getBlock :=
      (hp.map _).mem_iff
    have h2 : (∃ c ∈ cs, IsEdge c p q) ↔ ∃ c ∈ cs', IsEdge c p q :=
      ⟨fun ⟨c, hc, he⟩ => ⟨c, hp.mem_iff.1 hc, he⟩, fun ⟨c, hc, he⟩ => ⟨c, hp.mem_iff.2 hc, he⟩⟩
    rw [h1, h2]
  | inChild b pre post c c' hcc ih =>
    rw [IsEdge_mk, IsEdge_mk]
    have hb := hcc.getBlock_eq
    have h1 : q ∈ (pre ++ c :: post).map DomTreeNode.getBlock ↔
        q ∈ (pre ++ c' :: post).map DomTreeNode.getBlock := by
      simp [hb]
    have h2 : (∃ x ∈ pre ++ c :: post, IsEdge x p q) ↔
        ∃ x ∈ pre ++ c' :: post, IsEdge x p q := by
      constructor
      · rintro ⟨x, hx, he⟩
        rcases List.mem_append.1 hx with hx | hx
        · exact ⟨x, List.mem_append_left _ hx, he⟩
        · rcases List.mem_cons.1 hx with rfl | hx
          · exact ⟨c', by simp, ih.1 he⟩
          · exact ⟨x, by simp [hx], he⟩
      · rintro ⟨x, hx, he⟩
        rcases List.mem_append.1 hx with hx | hx
        · exact ⟨x, List.mem_append_left _ hx, he⟩
        · rcases List.mem_cons.1 hx with rfl | hx
          · exact ⟨c, by simp, ih.2 he⟩
          · exact ⟨x, by simp [hx], he⟩
    rw [h1, h2]

/-- The equations along the edges of a tree have at most one solution on the blocks of
the tree once the set of the root is fixed. -/
theorem edges_unique (g g' d : BasicBlock → ValueSet) (root : DomTreeNode)
    (hE : ∀ p c, IsEdge root p c → g c = g p ∪ d p)
    (hE' : ∀ p c, IsEdge root p c → g' c = g' p ∪ d p) :
    ∀ t, t ∈ DomTreeNode.nodes root → g' t.getBlock = g t.getBlock →
      ∀ M ∈ DomTreeNode.nodes t, g' M.getBlock = g M.getBlock := by
  intro t
  induction t using DomTreeNode.induct with
  | h t ih =>
    intro ht hgt M hM
    rcases DomTreeNode.mem_nodes_iff.1 hM with rfl | ⟨c, hc, hMc⟩
    · exact hgt
    · have hct : c ∈ DomTreeNode.nodes t :=
        DomTreeNode.mem_nodes_iff.2 (Or.inr ⟨c, hc, DomTreeNode.self_mem_nodes c⟩)
      have hedge : IsEdge root t.getBlock c.getBlock := ⟨t, ht, c, hc, rfl, rfl⟩
      exact ih c hc (DomTreeNode.mem_nodes_trans root hct ht)
        (by rw [hE _ _ hedge, hE' _ _ hedge, hgt]) M hMc

/-- Two maps with the same keys that both solve the equations of the tree hold the same
set for every block. -/
theorem result_determined (F : Function) (root : DomTreeNode) (d : BasicBlock → ValueSet)
    (R R' : Result)
    (hk : ∀ b, (Result.find R b).isSome = true ↔
      (b = F.getEntryBlock ∨ b ∈ (DomTreeNode.nodes root).map DomTreeNode.getBlock))
    (hk' : ∀ b, (Result.find R' b).isSome = true ↔
      (b = F.getEntryBlock ∨ b ∈ (DomTreeNode.nodes root).map DomTreeNode.getBlock))
    (hroot : root.getBlock = F.getEntryBlock)
    (hs : Result.get R root.getBlock = seed F) (hs' : Result.get R' root.getBlock = seed F)
    (hE : ∀ p c, IsEdge root p c → Result.get R c = Result.get R p ∪ d p)
    (hE' : ∀ p c, IsEdge root p c → Result.get R' c = Result.get R' p ∪ d p) :
    ∀ b, Result.find R' b = Result.find R b := by
  intro b
  by_cases hb : b = F.getEntryBlock ∨ b ∈ (DomTreeNode.nodes root).map DomTreeNode.getBlock
  · have h1 := (hk b).2 hb
    have h2 := (hk' b).2 hb
    have hmem : b ∈ (DomTreeNode.nodes root).map DomTreeNode.getBlock := by
      rcases hb with e | e
      · rw [e, ← hroot]
        exact List.mem_map.2 ⟨root, DomTreeNode.self_mem_nodes root, rfl⟩
      · exact e
    obtain ⟨M, hM, rfl⟩ := List.mem_map.1 hmem
    have hg := edges_unique (fun b => Result.get R b) (fun b => Result.get R' b) d root hE hE'
      root (DomTreeNode.self_mem_nodes root) (by show Result.get R' _ = Result.get R _; rw [hs, hs'])
      M hM
    change Result.get R' M.getBlock = Result.get R M.getBlock at hg
    cases hf : Result.find R M.getBlock with
    | none => rw [hf] at h1; cases h1
    | some s =>
      cases hf' : Result.find R' M.getBlock with
      | none => rw [hf'] at h2; cases h2
      | some s' =>
        simp only [Result.get, hf, hf', Option.getD_some] at hg
        rw [hg]
  · have h1 : Result.find R b = none := by
      cases hf : Result.find R b with
      | none => rfl
      | some s => exact absurd ((hk b).1 (by rw [hf]; rfl)) hb
    have h2 : Result.find R' b = none := by
      cases hf : Result.find R' b with
      | none => rfl
      | some s => exact absurd ((hk' b).1 (by rw [hf]; rfl)) hb
    rw [h1, h2]

theorem loop_fuel_add (fuel k : Nat) :
    ∀ (s : LoopState) (R : Result), loop fuel s = some R → loop (fuel + k) s = some R := by
  induction fuel with
  | zero =>
    rintro ⟨w, D, R0⟩ R h
    rcases eq_nil_or_snoc w with rfl | ⟨w0, t, rfl⟩
    · rw [loop_nil] at h ⊢; exact h
    · rw [loop_zero_concat] at h; cases h
  | succ fuel ih =>
    rintro ⟨w, D, R0⟩ R h
    rcases eq_nil_or_snoc w with rfl | ⟨w0, t, rfl⟩
    · rw [loop_nil] at h ⊢; exact h
    · rw [loop_succ_concat] at h
      rw [show fuel + 1 + k = (fuel + k) + 1 by omega, loop_succ_concat]
      exact ih _ _ h

/-- C11 (order independence). For every function and every dominator tree rooted at the
entry block with no block in two nodes, the map returned by `buildRIV` has the same keys
and the same set for every key as the map returned (i) on the tree in which the list of
children of any one node is permuted, (ii) by the traversal that takes the nodes from the
front of the deque instead of the back (breadth-first); and (iii) every run that is given
enough iterations returns the very same map. -/
theorem buildRIV_order_independent (fuel : Nat) (F : Function) (root : DomTreeNode)
    (hfuel : (DomTreeNode.nodes root).length ≤ fuel)
    (hroot : root.getBlock = F.getEntryBlock)
    (hN : ((DomTreeNode.nodes root).map DomTreeNode.getBlock).Nodup) :
    ∃ R, buildRIV fuel F root = some R ∧
      (∀ root', ChildrenPermuted root root' →
        ∃ R', buildRIV fuel F root' = some R' ∧ ∀ b, Result.find R' b = Result.find R b) ∧
      (∃ R', buildRIVFIFO fuel F root = some R' ∧ ∀ b, Result.find R' b = Result.find R b) ∧
      (∀ fuel', (DomTreeNode.nodes root).length ≤ fuel' → buildRIV fuel' F root = some R) := by
  obtain ⟨R, hR⟩ := buildRIV_returns fuel F root hfuel
  obtain ⟨hseed, hE⟩ := buildRIV_equations fuel F root R hR hroot hN
  have hk := buildRIV_keys fuel F root R hR
  have hEe : ∀ p c, IsEdge root p c → Result.get R c =
      Result.get R p ∪ (if p ∈ F.blocks then definedIn p else ∅) := by
    rintro p c ⟨P, hP, C, hC, rfl, rfl⟩
    exact hE P hP C hC
  refine ⟨R, hR, ?_, ?_, ?_⟩
  · intro root' hperm
    have hbp := hperm.blocks_perm
    have hfuel' : (DomTreeNode.nodes root').length ≤ fuel := by
      have := hbp.length_eq
      simp only [List.length_map] at this
      omega
    have hroot' : root'.getBlock = F.getEntryBlock := by rw [hperm.getBlock_eq, hroot]
    have hN' := hbp.nodup_iff.1 hN
    obtain ⟨R', hR'⟩ := buildRIV_returns fuel F root' hfuel'
    obtain ⟨hseed', hE'⟩ := buildRIV_equations fuel F root' R' hR' hroot' hN'
    refine ⟨R', hR', result_determined F root _ R R' hk ?_ hroot hseed ?_ hEe ?_⟩
    · intro b
      rw [buildRIV_keys fuel F root' R' hR' b, hbp.mem_iff]
    · rw [← hperm.getBlock_eq]; exact hseed'
    · intro p c he
      obtain ⟨P, hP, C, hC, rfl, rfl⟩ := (hperm.isEdge_iff p c).1 he
      exact hE' P hP C hC
  · obtain ⟨R', hR'⟩ := buildRIVFIFO_returns fuel F root hfuel
    obtain ⟨hseed', hE'⟩ := buildRIVFIFO_equations fuel F root R' hR' hroot hN
    refine ⟨R', hR', result_determined F root _ R R' hk
      (buildRIVFIFO_keys fuel F root R' hR') hroot hseed hseed' hEe ?_⟩
    rintro p c ⟨P, hP, C, hC, rfl, rfl⟩
    exact hE' P hP C hC
  · intro fuel' hfuel'
    obtain ⟨R', hR'⟩ := buildRIV_returns fuel' F root hfuel'
    unfold buildRIV at hR hR' ⊢
    rcases Nat.le_total fuel fuel' with hle | hle
    · obtain ⟨k, rfl⟩ := Nat.exists_eq_add_of_le hle
      exact loop_fuel_add fuel k _ _ hR
    · obtain ⟨k, rfl⟩ := Nat.exists_eq_add_of_le hle
      have := loop_fuel_add fuel' k _ _ hR'
      rw [hR] at this
      cases this
      exact hR'

/-- Witness of C11 on the diamond, one permutation of the children of the root being
`diamondTreePermuted`. -/
theorem buildRIV_order_independent_witness :
    ((DomTreeNode.nodes diamondTree).length ≤ 4 ∧
      diamondTree.getBlock = diamondF.getEntryBlock ∧
      ((DomTreeNode.nodes diamondTree).map DomTreeNode.getBlock).Nodup ∧
      ChildrenPermuted diamondTree diamondTreePermuted) ∧
    ∃ R, buildRIV 4 diamondF diamondTree = some R ∧
      (∀ root', ChildrenPermuted diamondTree root' →
        ∃ R', buildRIV 4 diamondF root' = some R' ∧
          ∀ b, Result.find R' b = Result.find R b) ∧
      (∃ R', buildRIVFIFO 4 diamondF diamondTree = some R' ∧
        ∀ b, Result.find R' b = Result.find R b) ∧
      (∀ fuel', (DomTreeNode.nodes diamondTree).length ≤ fuel' →
        buildRIV fuel' diamondF diamondTree = some R) :=
  ⟨⟨by decide, by decide, by decide,
      ChildrenPermuted.atNode _ _ _
        (show List.Perm
            ([DomTreeNode.mk diamondB1 [], DomTreeNode.mk diamondB2 []] ++
              [DomTreeNode.mk diamondB3 []])
            ([DomTreeNode.mk diamondB3 []] ++
              [DomTreeNode.mk diamondB1 [], DomTreeNode.mk diamondB2 []])
          from List.perm_append_comm)⟩,
    buildRIV_order_independent 4 diamondF diamondTree (by decide) (by decide) (by decide)⟩

/-! ## The trace of the traversal -/

theorem loopTrace_nil (fuel : Nat) (D : DefValMapTy) (R : Result) :
    loopTrace fuel ⟨[], D, R⟩ = some ([], R) := by
  cases fuel <;> rfl

theorem loopTrace_zero_concat (w : List DomTreeNode) (t : DomTreeNode) (D : DefValMapTy)
    (R : Result) : loopTrace 0 ⟨w ++ [t], D, R⟩ = none := by
  cases w <;> rfl

theorem loopTrace_succ_concat (fuel : Nat) (w : List DomTreeNode) (t : DomTreeNode)
    (D : DefValMapTy) (R : Result) :
    loopTrace (fuel + 1) ⟨w ++ [t], D, R⟩ =
      match loopTrace fuel (loopBody t w D R) with
      | none => none
      | some (pops, Rfin) => some ((t, Result.get R t.getBlock) :: pops, Rfin) := by
  cases w with
  | nil => simp [loopTrace]
  | cons n ns =>
    have h1 : ∀ h, (n :: (ns ++ [t])).getLast h = t := by
      intro h
      simp [List.getLast_cons]
    have h2 : (n :: (ns ++ [t])).dropLast = n :: ns := by
      rw [← List.cons_append]
      exact List.dropLast_concat
    show loopTrace (fuel + 1) ⟨n :: (ns ++ [t]), D, R⟩ = _
    simp only [loopTrace, h1, h2]

/-- The traced loop returns the map that the loop of STEP 3 returns. -/
theorem loopTrace_snd (fuel : Nat) :
    ∀ s : LoopState, (loopTrace fuel s).map Prod.snd = loop fuel s := by
  induction fuel with
  | zero =>
    rintro ⟨w, D, R⟩
    rcases eq_nil_or_snoc w with rfl | ⟨w0, t, rfl⟩
    · rw [loopTrace_nil, loop_nil]; rfl
    · rw [loopTrace_zero_concat, loop_zero_concat]; rfl
  | succ fuel ih =>
    rintro ⟨w, D, R⟩
    rcases eq_nil_or_snoc w with rfl | ⟨w0, t, rfl⟩
    · rw [loopTrace_nil, loop_nil]; rfl
    · rw [loopTrace_succ_concat, loop_succ_concat, ← ih]
      cases loopTrace fuel (loopBody t w0 D R) with
      | none => rfl
      | some r => rfl

theorem loopTrace_of_loop (fuel : Nat) (s : LoopState) (R : Result)
    (h : loop fuel s = some R) : ∃ pops, loopTrace fuel s = some (pops, R) := by
  rw [← loopTrace_snd] at h
  cases ht : loopTrace fuel s with
  | none => rw [ht] at h; cases h
  | some r =>
    rw [ht] at h
    obtain ⟨pops, R'⟩ := r
    cases h
    exact ⟨pops, rfl⟩

theorem loop_of_loopTrace (fuel : Nat) (s : LoopState) (pops : List (DomTreeNode × ValueSet))
    (R : Result) (h : loopTrace fuel s = some (pops, R)) : loop fuel s = some R := by
  rw [← loopTrace_snd, h]; rfl

/-- Induction along the iterations of the traced loop. -/
theorem loopTrace_induction
    (motive : LoopState → List (DomTreeNode × ValueSet) → Result → Prop)
    (hnil : ∀ D R, motive ⟨[], D, R⟩ [] R)
    (hstep : ∀ w t D R pops Rfin, (∃ fuel, loop fuel (loopBody t w D R) = some Rfin) →
      motive (loopBody t w D R) pops Rfin →
      motive ⟨w ++ [t], D, R⟩ ((t, Result.get R t.getBlock) :: pops) Rfin) :
    ∀ fuel s pops Rfin, loopTrace fuel s = some (pops, Rfin) → motive s pops Rfin := by
  intro fuel
  induction fuel with
  | zero =>
    rintro ⟨w, D, R⟩ pops Rfin h
    rcases eq_nil_or_snoc w with rfl | ⟨w0, t, rfl⟩
    · rw [loopTrace_nil] at h; cases h; exact hnil D R
    · rw [loopTrace_zero_concat] at h; cases h
  | succ fuel ih =>
    rintro ⟨w, D, R⟩ pops Rfin h
    rcases eq_nil_or_snoc w with rfl | ⟨w0, t, rfl⟩
    · rw [loopTrace_nil] at h; cases h; exact hnil D R
    · rw [loopTrace_succ_concat] at h
      cases ht : loopTrace fuel (loopBody t w0 D R) with
      | none => rw [ht] at h; cases h
      | some r =>
        obtain ⟨pops', R'⟩ := r
        rw [ht] at h
        cases h
        exact hstep w0 t D R pops' Rfin ⟨fuel, loop_of_loopTrace _ _ _ _ ht⟩ (ih _ _ _ ht)

/-- The nodes popped by the loop are the nodes in and below the deque, each one once. -/
theorem loopTrace_perm (fuel : Nat) (w : List DomTreeNode) (D : DefValMapTy) (R Rfin : Result)
    (pops : List (DomTreeNode × ValueSet)) (h : loopTrace fuel ⟨w, D, R⟩ = some (pops, Rfin)) :
    List.Perm (pops.map Prod.fst) (DomTreeNode.nodesList w) := by
  refine loopTrace_induction
    (fun s pops _ => List.Perm (pops.map Prod.fst) (DomTreeNode.nodesList s.BBsToProcess))
    ?_ ?_ fuel _ _ _ h
  · intro D R; simp [DomTreeNode.nodesList]
  · intro w t D R pops Rf _ ih
    simp only [loopBody_work, DomTreeNode.nodesList_append] at ih
    simp only [List.map_cons, DomTreeNode.nodesList_concat]
    exact (List.Perm.cons t ih).trans List.perm_middle.symm

/-- Every popped node was in the deque at the start or is a child of a node popped
before it. -/
theorem loopTrace_parent_first (fuel : Nat) (w : List DomTreeNode) (D : DefValMapTy)
    (R Rfin : Result) (pops : List (DomTreeNode × ValueSet))
    (h : loopTrace fuel ⟨w, D, R⟩ = some (pops, Rfin)) :
    ∀ pre C post, pops.map Prod.fst = pre ++ C :: post →
      C ∈ w ∨ ∃ P ∈ pre, C ∈ P.children := by
  refine loopTrace_induction
    (fun s pops _ => ∀ pre C post, pops.map Prod.fst = pre ++ C :: post →
      C ∈ s.BBsToProcess ∨ ∃ P ∈ pre, C ∈ P.children)
    ?_ ?_ fuel _ _ _ h
  · intro D R pre C post e
    simp at e
  · intro w t D R pops Rf _ ih pre C post e
    simp only [loopBody_work] at ih
    cases pre with
    | nil =>
      simp only [List.map_cons, List.nil_append, List.cons.injEq] at e
      exact Or.inl (by simp [e.1])
    | cons x pre' =>
      simp only [List.map_cons, List.cons_append, List.cons.injEq] at e
      obtain ⟨rfl, e2⟩ := e
      rcases ih pre' C post e2 with hC | ⟨P, hP, hPC⟩
      · rcases List.mem_append.1 hC with hC | hC
        · exact Or.inl (List.mem_append_left _ hC)
        · exact Or.inr ⟨_, List.mem_cons_self _ _, hC⟩
      · exact Or.inr ⟨P, List.mem_cons_of_mem _ hP, hPC⟩

/-- When no block occurs twice among the nodes in and below the deque, the copy that an
iteration takes of the set of the popped node is the set of that node in the final map. -/
theorem loopTrace_final (fuel : Nat) (w : List DomTreeNode) (D : DefValMapTy)
    (R Rfin : Result) (pops : List (DomTreeNode × ValueSet))
    (h : loopTrace fuel ⟨w, D, R⟩ = some (pops, Rfin))
    (hN : (DomTreeNode.blocksOf w).Nodup) :
    ∀ P s, (P, s) ∈ pops → Result.get Rfin P.getBlock = s := by
  refine loopTrace_induction
    (fun st pops Rf => (DomTreeNode.blocksOf st.BBsToProcess).Nodup →
      ∀ P s, (P, s) ∈ pops → Result.get Rf P.getBlock = s)
    ?_ ?_ fuel _ _ _ h hN
  · intro D R _ P s hmem; cases hmem
  · intro w t D R pops Rf hloop ih hN P s hmem
    simp only [loopBody_work] at ih
    simp only at hN
    rw [DomTreeNode.blocksOf_concat, List.nodup_append, List.nodup_cons] at hN
    obtain ⟨hNw, ⟨hNt, hNc⟩, hdis⟩ := hN
    rcases List.mem_cons.1 hmem with e | hmem
    · cases e
      obtain ⟨fuel', hl⟩ := hloop
      have hbelow : ∀ u ∈ (loopBody t w D R).BBsToProcess,
          t.getBlock ∉ DomTreeNode.blocksOf u.children := by
        rw [loopBody_work]
        intro u hu hb
        rcases List.mem_append.1 hu with hu | hu
        · exact hdis (DomTreeNode.blocksOf_children_subset hu hb) (List.mem_cons_self _ _)
        · exact hNt (DomTreeNode.blocksOf_children_subset hu hb)
      have hu : Result.get Rf t.getBlock = Result.get (loopBody t w D R).ResultMap t.getBlock :=
        loop_untouched fuel' _ _ _ _ hl t.getBlock hbelow
      have htc : t.getBlock ∉ t.children.map DomTreeNode.getBlock :=
        fun hc => hNt (mem_children_blocks hc)
      rw [hu, Result.get, loopBody_find]
      simp [htc, Result.get]
    · refine ih ?_ P s hmem
      rw [DomTreeNode.blocksOf_append, List.nodup_append]
      exact ⟨hNw, hNc, fun b hb hb2 => hdis hb (List.mem_cons_of_mem _ hb2)⟩

/-- C14 (termination and single visit). For every function and every dominator tree, the
loop of `buildRIV`, given one iteration per tree node, terminates and returns the map of
`buildRIV`; the sequence of the nodes it pops has as many entries as the tree has nodes
and is a permutation of the nodes of the tree, so every node is popped exactly once; the
first node popped is the root, and every other node is popped after a node of which it is
a child. When no block belongs to two nodes, the popped nodes are pairwise different and
the copy `ParentRIVs` taken when a node is popped is the set of that node in the returned
map. -/
theorem buildRIV_single_visit (fuel : Nat) (F : Function) (root : DomTreeNode)
    (hfuel : (DomTreeNode.nodes root).length ≤ fuel) :
    ∃ pops R, buildRIVTrace fuel F root = some (pops, R) ∧ buildRIV fuel F root = some R ∧
      pops.length = (DomTreeNode.nodes root).length ∧
      List.Perm (pops.map Prod.fst) (DomTreeNode.nodes root) ∧
      (pops.map Prod.fst).head? = some root ∧
      (∀ pre C post, pops.map Prod.fst = pre ++ C :: post →
        C = root ∨ ∃ P ∈ pre, C ∈ P.children) ∧
      (((DomTreeNode.nodes root).map DomTreeNode.getBlock).Nodup →
        (pops.map Prod.fst).Nodup ∧
        ∀ P s, (P, s) ∈ pops → Result.find R P.getBlock = some s) := by
  obtain ⟨R, hR⟩ := buildRIV_returns fuel F root hfuel
  have hR2 := hR
  unfold buildRIV at hR2
  obtain ⟨pops, hp⟩ := loopTrace_of_loop _ _ _ hR2
  have hperm : List.Perm (pops.map Prod.fst) (DomTreeNode.nodes root) := by
    have := loopTrace_perm _ _ _ _ _ _ hp
    simpa [DomTreeNode.nodesList] using this
  have hpar : ∀ pre C post, pops.map Prod.fst = pre ++ C :: post →
      C = root ∨ ∃ P ∈ pre, C ∈ P.children := by
    intro pre C post e
    rcases loopTrace_parent_first _ _ _ _ _ _ hp pre C post e with h | h
    · exact Or.inl (List.mem_singleton.1 h)
    · exact Or.inr h
  refine ⟨pops, R, hp, hR, ?_, hperm, ?_, hpar, ?_⟩
  · have := hperm.length_eq
    simpa using this
  · cases hm : pops.map Prod.fst with
    | nil =>
      have := hperm.length_eq
      rw [hm, DomTreeNode.nodes_eq] at this
      simp at this
    | cons C post =>
      rcases hpar [] C post (by simpa using hm) with h | ⟨P, hP, _⟩
      · simp [h]
      · cases hP
  · intro hN
    refine ⟨hperm.nodup_iff.2 (List.Nodup.of_map _ hN), fun P s hmem => ?_⟩
    have hPn : P ∈ DomTreeNode.nodes root :=
      hperm.mem_iff.1 (List.mem_map.2 ⟨(P, s), hmem, rfl⟩)
    rw [buildRIV_find_of_mem fuel F root R hR P hPn,
      loopTrace_final _ _ _ _ _ _ hp (by rw [blocksOf_singleton]; exact hN) P s hmem]

/-- Witness of C14 on the diamond. -/
theorem buildRIV_single_visit_witness :
    ((DomTreeNode.nodes diamondTree).length ≤ 4 ∧
      ((DomTreeNode.nodes diamondTree).map DomTreeNode.getBlock).Nodup) ∧
    ∃ pops R, buildRIVTrace 4 diamondF diamondTree = some (pops, R) ∧
      buildRIV 4 diamondF diamondTree = some R ∧
      pops.length = (DomTreeNode.nodes diamondTree).length ∧
      List.Perm (pops.map Prod.fst) (DomTreeNode.nodes diamondTree) ∧
      (pops.map Prod.fst).head? = some diamondTree ∧
      (∀ pre C post, pops.map Prod.fst = pre ++ C :: post →
        C = diamondTree ∨ ∃ P ∈ pre, C ∈ P.children) ∧
      (((DomTreeNode.nodes diamondTree).map DomTreeNode.getBlock).Nodup →
        (pops.map Prod.fst).Nodup ∧
        ∀ P s, (P, s) ∈ pops → Result.find R P.getBlock = some s) :=
  ⟨⟨by decide, by decide⟩, buildRIV_single_visit 4 diamondF diamondTree (by decide)⟩

end RIV

namespace DCE

/-! ## Liveness propagation -/

theorem mem_collectRoots_alive (F : Function) (insts : List Nat) (s : LiveState) (I : Nat) :
    I ∈ (collectRoots F insts s).Alive ↔
      (I ∈ s.Alive ∨
        (I ∈ insts ∧ (F.isDebugOrPseudoInst I = true ∨ F.isSafeToRemove I = false))) := by
  induction insts generalizing s with
  | nil => simp [collectRoots]
  | cons J rest ih =>
    by_cases hJ : (F.isDebugOrPseudoInst J || !F.isSafeToRemove J) = true
    · rw [collectRoots, if_pos hJ, ih]
      simp only [Finset.mem_insert, List.mem_cons]
      have hJ2 : F.isDebugOrPseudoInst J = true ∨ F.isSafeToRemove J = false := by
        simpa using hJ
      constructor
      · rintro ((rfl | h) | h)
        · exact Or.inr ⟨Or.inl rfl, hJ2⟩
        · exact Or.inl h
        · exact Or.inr ⟨Or.inr h.1, h.2⟩
      · rintro (h | ⟨rfl | h, hc⟩)
        · exact Or.inl (Or.inr h)
        · exact Or.inl (Or.inl rfl)
        · exact Or.inr ⟨h, hc⟩
    · rw [collectRoots, if_neg hJ, ih]
      simp only [List.mem_cons]
      have hJ2 : ¬ (F.isDebugOrPseudoInst J = true ∨ F.isSafeToRemove J = false) := by
        simpa using hJ
      constructor
      · rintro (h | h)
        · exact Or.inl h
        · exact Or.inr ⟨Or.inr h.1, h.2⟩
      · rintro (h | ⟨rfl | h, hc⟩)
        · exact Or.inl h
        · exact absurd hc hJ2
        · exact Or.inr ⟨h, hc⟩

theorem mem_collectRoots_worklist (F : Function) (insts : List Nat) (s : LiveState) (I : Nat) :
    I ∈ (collectRoots F insts s).Worklist ↔
      (I ∈ s.Worklist ∨
        (I ∈ insts ∧ (F.isDebugOrPseudoInst I = true ∨ F.isSafeToRemove I = false))) := by
  induction insts generalizing s with
  | nil => simp [collectRoots]
  | cons J rest ih =>
    by_cases hJ : (F.isDebugOrPseudoInst J || !F.isSafeToRemove J) = true
    · rw [collectRoots, if_pos hJ, ih]
      simp only [List.mem_append, List.mem_cons, List.not_mem_nil, or_false]
      have hJ2 : F.isDebugOrPseudoInst J = true ∨ F.isSafeToRemove J = false := by
        simpa using hJ
      constructor
      · rintro ((h | rfl) | h)
        · exact Or.inl h
        · exact Or.inr ⟨Or.inl rfl, hJ2⟩
        · exact Or.inr ⟨Or.inr h.1, h.2⟩
      · rintro (h | ⟨rfl | h, hc⟩)
        · exact Or.inl (Or.inl h)
        · exact Or.inl (Or.inr rfl)
        · exact Or.inr ⟨h, hc⟩
    · rw [collectRoots, if_neg hJ, ih]
      simp only [List.mem_cons]
      have hJ2 : ¬ (F.isDebugOrPseudoInst J = true ∨ F.isSafeToRemove J = false) := by
        simpa using hJ
      constructor
      · rintro (h | h)
        · exact Or.inl h
        · exact Or.inr ⟨Or.inr h.1, h.2⟩
      · rintro (h | ⟨rfl | h, hc⟩)
        · exact Or.inl h
        · exact absurd hc hJ2
        · exact Or.inr ⟨h, hc⟩

theorem length_collectRoots (F : Function) (insts : List Nat) (s : LiveState) :
    (collectRoots F insts s).Worklist.length ≤ s.Worklist.length + insts.length := by
  induction insts generalizing s with
  | nil => simp [collectRoots]
  | cons J rest ih =>
    by_cases hJ : (F.isDebugOrPseudoInst J || !F.isSafeToRemove J) = true
    · rw [collectRoots, if_pos hJ]
      have := ih ⟨insert J s.Alive, s.Worklist ++ [J]⟩
      simp at this ⊢
      omega
    · rw [collectRoots, if_neg hJ]
      have := ih s
      simp at this ⊢
      omega

theorem mem_visitOperands_alive (ops : List Operand) (s : LiveState) (I : Nat) :
    I ∈ (visitOperands ops s).Alive ↔ (I ∈ s.Alive ∨ Operand.inst I ∈ ops) := by
  induction ops generalizing s with
  | nil => simp [visitOperands]
  | cons o rest ih =>
    cases o with
    | other => simp [visitOperands, ih]
    | inst J =>
      by_cases hJ : J ∈ s.Alive
      · simp only [visitOperands, hJ, if_true, ih, List.mem_cons, Operand.inst.injEq]
        constructor
        · rintro (h | h)
          · exact Or.inl h
          · exact Or.inr (Or.inr h)
        · rintro (h | rfl | h)
          · exact Or.inl h
          · exact Or.inl hJ
          · exact Or.inr h
      · simp only [visitOperands, hJ, if_false, ih, Finset.mem_insert, List.mem_cons,
          Operand.inst.injEq]
        tauto

theorem mem_visitOperands_worklist (ops : List Operand) (s : LiveState) (I : Nat) :
    I ∈ (visitOperands ops s).Worklist ↔
      (I ∈ s.Worklist ∨ (Operand.inst I ∈ ops ∧ I ∉ s.Alive)) := by
  induction ops generalizing s with
  | nil => simp [visitOperands]
  | cons o rest ih =>
    cases o with
    | other => simp [visitOperands, ih]
    | inst J =>
      by_cases hJ : J ∈ s.Alive
      · simp only [visitOperands, hJ, if_true, ih, List.mem_cons, Operand.inst.injEq]
        constructor
        · rintro (h | h)
          · exact Or.inl h
          · exact Or.inr ⟨Or.inr h.1, h.2⟩
        · rintro (h | ⟨rfl | h, hn⟩)
          · exact Or.inl h
          · exact absurd hJ hn
          · exact Or.inr ⟨h, hn⟩
      · simp only [visitOperands, hJ, if_false, ih, Finset.mem_insert, List.mem_cons,
          Operand.inst.injEq, List.mem_append, List.not_mem_nil, or_false, not_or]
        constructor
        · rintro ((h | rfl) | ⟨h, hn, hn2⟩)
          · exact Or.inl h
          · exact Or.inr ⟨Or.inl rfl, hJ⟩
          · exact Or.inr ⟨Or.inr h, hn2⟩
        · rintro (h | ⟨rfl | h, hn⟩)
          · exact Or.inl (Or.inl h)
          · exact Or.inl (Or.inr rfl)
          · by_cases e : I = J
            · exact Or.inl (Or.inr e)
            · exact Or.inr ⟨h, e, hn⟩

/-- The number of waiting instructions plus the number of instructions of `U` that are not
yet live is not changed by the loop over the operands. -/
theorem measure_visitOperands (U : Finset Nat) (ops : List Operand) (s : LiveState)
    (hU : ∀ J, Operand.inst J ∈ ops → J ∈ U) :
    (visitOperands ops s).Worklist.length + (U \ (visitOperands ops s).Alive).card =
      s.Worklist.length + (U \ s.Alive).card := by
  induction ops generalizing s with
  | nil => simp [visitOperands]
  | cons o rest ih =>
    have hU2 : ∀ J, Operand.inst J ∈ rest → J ∈ U :=
      fun J hJ => hU J (List.mem_cons_of_mem _ hJ)
    cases o with
    | other => simp only [visitOperands]; exact ih s hU2
    | inst J =>
      by_cases hJ : J ∈ s.Alive
      · simp only [visitOperands, hJ, if_true]; exact ih s hU2
      · simp only [visitOperands, hJ, if_false]
        rw [ih _ hU2]
        have hJU : J ∈ U \ s.Alive :=
          Finset.mem_sdiff.2 ⟨hU J (List.mem_cons_self _ _), hJ⟩
        have e : U \ insert J s.Alive = (U \ s.Alive).erase J := by
          ext x; simp only [Finset.mem_sdiff, Finset.mem_insert, Finset.mem_erase]; tauto
        have hpos : 0 < (U \ s.Alive).card := Finset.card_pos.2 ⟨J, hJU⟩
        simp only [e, Finset.card_erase_of_mem hJU, List.length_append, List.length_singleton]
        omega

theorem worklist_nil_or_snoc (w : List Nat) : w = [] ∨ ∃ w0 t, w = w0 ++ [t] := by
  rcases List.eq_nil_or_concat w with h | ⟨w0, t, h⟩
  · exact Or.inl h
  · exact Or.inr ⟨w0, t, by simpa using h⟩

theorem propagate_nil (F : Function) (fuel : Nat) (A : Finset Nat) :
    propagate F fuel ⟨A, []⟩ = some ⟨A, []⟩ := by
  cases fuel <;> rfl

theorem propagate_zero_concat (F : Function) (A : Finset Nat) (w : List Nat) (t : Nat) :
    propagate F 0 ⟨A, w ++ [t]⟩ = none := by
  cases w <;> rfl

theorem propagate_succ_concat (F : Function) (fuel : Nat) (A : Finset Nat) (w : List Nat)
    (t : Nat) :
    propagate F (fuel + 1) ⟨A, w ++ [t]⟩ =
      propagate F fuel (visitOperands (F.operands t) ⟨A, w⟩) := by
  cases w with
  | nil => simp [propagate]
  | cons n ns =>
    have h1 : ∀ h, (n :: (ns ++ [t])).getLast h = t := by
      intro h
      simp [List.getLast_cons]
    have h2 : (n :: (ns ++ [t])).dropLast = n :: ns := by
      rw [← List.cons_append]
      exact List.dropLast_concat
    show propagate F (fuel + 1) ⟨A, n :: (ns ++ [t])⟩ = _
    simp only [propagate, h1, h2]

/-- Induction along the iterations of the propagation loop. -/
theorem propagate_induction (F : Function) (motive : LiveState → LiveState → Prop)
    (hnil : ∀ A, motive ⟨A, []⟩ ⟨A, []⟩)
    (hstep : ∀ A w t sfin, motive (visitOperands (F.operands t) ⟨A, w⟩) sfin →
      motive ⟨A, w ++ [t]⟩ sfin) :
    ∀ fuel s sfin, propagate F fuel s = some sfin → motive s sfin := by
  intro fuel
  induction fuel with
  | zero =>
    rintro ⟨A, w⟩ sfin h
    rcases worklist_nil_or_snoc w with rfl | ⟨w0, t, rfl⟩
    · rw [propagate_nil] at h; cases h; exact hnil A
    · rw [propagate_zero_concat] at h; cases h
  | succ fuel ih =>
    rintro ⟨A, w⟩ sfin h
    rcases worklist_nil_or_snoc w with rfl | ⟨w0, t, rfl⟩
    · rw [propagate_nil] at h; cases h; exact hnil A
    · rw [propagate_succ_concat] at h
      exact hstep A w0 t sfin (ih _ _ h)

/-- The propagation loop ends within as many iterations as there are waiting instructions
and instructions of the function that are not yet live, when the operands of the
instructions of the function that are instructions are instructions of the function. -/
theorem propagate_terminates (F : Function)
    (hwf : ∀ I ∈ F.insts, ∀ J, Operand.inst J ∈ F.operands I → J ∈ F.insts) (fuel : Nat) :
    ∀ s : LiveState, (∀ I ∈ s.Worklist, I ∈ F.insts) →
      s.Worklist.length + (F.insts.toFinset \ s.Alive).card ≤ fuel →
      ∃ sfin, propagate F fuel s = some sfin := by
  induction fuel with
  | zero =>
    rintro ⟨A, w⟩ _ h
    rcases worklist_nil_or_snoc w with rfl | ⟨w0, t, rfl⟩
    · exact ⟨_, propagate_nil _ _ _⟩
    · simp at h
  | succ fuel ih =>
    rintro ⟨A, w⟩ hw h
    rcases worklist_nil_or_snoc w with rfl | ⟨w0, t, rfl⟩
    · exact ⟨_, propagate_nil _ _ _⟩
    · rw [propagate_succ_concat]
      have ht : t ∈ F.insts := hw t (by simp)
      have hU : ∀ J, Operand.inst J ∈ F.operands t → J ∈ F.insts.toFinset :=
        fun J hJ => List.mem_toFinset.2 (hwf t ht J hJ)
      apply ih
      · intro I hI
        rcases (mem_visitOperands_worklist _ _ _).1 hI with hI | ⟨hI, _⟩
        · exact hw I (List.mem_append_left _ hI)
        · exact hwf t ht I hI
      · rw [measure_visitOperands _ _ _ hU]
        simp only [List.length_append, List.length_singleton] at h ⊢
        omega

theorem propagate_worklist (F : Function) (fuel : Nat) (s sfin : LiveState)
    (h : propagate F fuel s = some sfin) : sfin.Worklist = [] :=
  propagate_induction F (fun _ sf => sf.Worklist = []) (fun _ => rfl)
    (fun _ _ _ _ ih => ih) fuel s sfin h

/-- What the propagation loop maintains: the roots are live, the waiting instructions are
live, the live instructions that are not waiting have their instruction operands live, and
the live set is inside every closed set that holds the roots. -/
theorem propagate_invariant (F : Function) (fuel : Nat) (s sfin : LiveState)
    (h : propagate F fuel s = some sfin)
    (h1 : ∀ I, IsRoot F I → I ∈ s.Alive)
    (h2 : ∀ I ∈ s.Worklist, I ∈ s.Alive)
    (h3 : ∀ I ∈ s.Alive, I ∉ s.Worklist → ∀ J, Operand.inst J ∈ F.operands I → J ∈ s.Alive)
    (h4 : ∀ S : Finset Nat, (∀ I, IsRoot F I → I ∈ S) → Closed F S → s.Alive ⊆ S) :
    (∀ I, IsRoot F I → I ∈ sfin.Alive) ∧
    (∀ I ∈ sfin.Alive, I ∉ sfin.Worklist →
      ∀ J, Operand.inst J ∈ F.operands I → J ∈ sfin.Alive) ∧
    (∀ S : Finset Nat, (∀ I, IsRoot F I → I ∈ S) → Closed F S → sfin.Alive ⊆ S) := by
  refine propagate_induction F
    (fun s sf => (∀ I, IsRoot F I → I ∈ s.Alive) → (∀ I ∈ s.Worklist, I ∈ s.Alive) →
      (∀ I ∈ s.Alive, I ∉ s.Worklist → ∀ J, Operand.inst J ∈ F.operands I → J ∈ s.Alive) →
      (∀ S : Finset Nat, (∀ I, IsRoot F I → I ∈ S) → Closed F S → s.Alive ⊆ S) →
      (∀ I, IsRoot F I → I ∈ sf.Alive) ∧
      (∀ I ∈ sf.Alive, I ∉ sf.Worklist →
        ∀ J, Operand.inst J ∈ F.operands I → J ∈ sf.Alive) ∧
      (∀ S : Finset Nat, (∀ I, IsRoot F I → I ∈ S) → Closed F S → sf.Alive ⊆ S))
    ?_ ?_ fuel s sfin h h1 h2 h3 h4
  · intro A h1 _ h3 h4
    exact ⟨h1, h3, h4⟩
  · intro A w t sf ih h1 h2 h3 h4
    simp only at h1 h2 h3 h4
    have htA : t ∈ A := h2 t (by simp)
    apply ih
    · intro I hI
      exact (mem_visitOperands_alive _ _ _).2 (Or.inl (h1 I hI))
    · intro I hI
      rcases (mem_visitOperands_worklist _ _ _).1 hI with hI | ⟨hI, _⟩
      · exact (mem_visitOperands_alive _ _ _).2 (Or.inl (h2 I (List.mem_append_left _ hI)))
      · exact (mem_visitOperands_alive _ _ _).2 (Or.inr hI)
    · intro I hI hIw J hJ
      rw [mem_visitOperands_worklist] at hIw
      simp only [not_or, not_and, not_not] at hIw
      rcases (mem_visitOperands_alive _ _ _).1 hI with hIA | hIop
      · by_cases e : I = t
        · subst e
          exact (mem_visitOperands_alive _ _ _).2 (Or.inr hJ)
        · have hnw : I ∉ w ++ [t] := by
            simp only [List.mem_append, List.mem_singleton, not_or]
            exact ⟨hIw.1, e⟩
          exact (mem_visitOperands_alive _ _ _).2 (Or.inl (h3 I hIA hnw J hJ))
      · have hIA := hIw.2 hIop
        by_cases e : I = t
        · subst e
          exact (mem_visitOperands_alive _ _ _).2 (Or.inr hJ)
        · have hnw : I ∉ w ++ [t] := by
            simp only [List.mem_append, List.mem_singleton, not_or]
            exact ⟨hIw.1, e⟩
          exact (mem_visitOperands_alive _ _ _).2 (Or.inl (h3 I hIA hnw J hJ))
    · intro S hS hC I hI
      rcases (mem_visitOperands_alive _ _ _).1 hI with hIA | hIop
      · exact h4 S hS hC hIA
      · exact hC t (h4 S hS hC htA) I hIop

/-- C15 (liveness is a least fixed point). For every function whose instruction operands
are instructions of the function, the propagation loop of `runOnFunction`, given two
iterations per instruction, terminates with an empty worklist, and the set `Alive` it
leaves holds every instruction of the function that is a debug or pseudo instruction or is
not safe to remove, is closed under taking the operands that are instructions, and is
included in every set with these two properties: it is the smallest such set. -/
theorem computeAlive_least_fixed_point (fuel : Nat) (F : Function)
    (hwf : ∀ I ∈ F.insts, ∀ J, Operand.inst J ∈ F.operands I → J ∈ F.insts)
    (hfuel : F.insts.length + F.insts.length ≤ fuel) :
    ∃ Alive, computeAlive fuel F = some ⟨Alive, []⟩ ∧
      (∀ I, IsRoot F I → I ∈ Alive) ∧
      Closed F Alive ∧
      (∀ S : Finset Nat, (∀ I, IsRoot F I → I ∈ S) → Closed F S → Alive ⊆ S) := by
  have hA : ∀ I, I ∈ (collectRoots F F.insts ⟨∅, []⟩).Alive ↔ IsRoot F I := by
    intro I; rw [mem_collectRoots_alive]; simp [IsRoot]
  have hW : ∀ I, I ∈ (collectRoots F F.insts ⟨∅, []⟩).Worklist ↔ IsRoot F I := by
    intro I; rw [mem_collectRoots_worklist]; simp [IsRoot]
  obtain ⟨sfin, hs⟩ := propagate_terminates F hwf fuel (collectRoots F F.insts ⟨∅, []⟩)
    (fun I hI => ((hW I).1 hI).1)
    (by
      have h1 := length_collectRoots F F.insts ⟨∅, []⟩
      have h2 : (F.insts.toFinset \ (collectRoots F F.insts ⟨∅, []⟩).Alive).card ≤
          F.insts.length :=
        (Finset.card_le_card Finset.sdiff_subset).trans (List.toFinset_card_le _)
      simp only [List.length_nil, Nat.zero_add] at h1
      omega)
  have hwl := propagate_worklist F fuel _ _ hs
  obtain ⟨g1, g2, g3⟩ := propagate_invariant F fuel _ _ hs
    (fun I hI => (hA I).2 hI)
    (fun I hI => (hA I).2 ((hW I).1 hI))
    (fun I hI hnI => absurd ((hW I).2 ((hA I).1 hI)) hnI)
    (fun S hS _ I hI => hS I ((hA I).1 hI))
  refine ⟨sfin.Alive, ?_, g1, ?_, g3⟩
  · unfold computeAlive
    rw [hs]
    obtain ⟨A, W⟩ := sfin
    simp only at hwl
    rw [hwl]
  · intro I hI J hJ
    exact g2 I hI (by rw [hwl]; simp) J hJ

/-- Witness of C15 on the function `exampleF`. -/
theorem computeAlive_least_fixed_point_witness :
    ((∀ I ∈ exampleF.insts, ∀ J, Operand.inst J ∈ exampleF.operands I → J ∈ exampleF.insts) ∧
      exampleF.insts.length + exampleF.insts.length ≤ 6) ∧
    ∃ Alive, computeAlive 6 exampleF = some ⟨Alive, []⟩ ∧
      (∀ I, IsRoot exampleF I → I ∈ Alive) ∧
      Closed exampleF Alive ∧
      (∀ S : Finset Nat, (∀ I, IsRoot exampleF I → I ∈ S) → Closed exampleF S → Alive ⊆ S) :=
  have hwf : ∀ I ∈ exampleF.insts, ∀ J,
      Operand.inst J ∈ exampleF.operands I → J ∈ exampleF.insts := by
    intro I _ J hJ
    by_cases e : I = 2
    · simp [exampleF, e] at hJ
      simp [exampleF, hJ]
    · simp [exampleF, e] at hJ
  ⟨⟨hwf, by decide⟩, computeAlive_least_fixed_point 6 exampleF hwf (by decide)⟩

/-! ## Erasure -/

theorem collectErased_fst (Alive : Finset Nat) (insts W : List Nat)
    (ops : Nat → List Operand) :
    (collectErased Alive insts (W, ops)).1 = W ++ insts.filter (fun I => decide (I ∈ Alive)) := by
  induction insts generalizing W ops with
  | nil => simp [collectErased]
  | cons I rest ih =>
    by_cases hI : I ∈ Alive
    · simp [collectErased, hI, ih, List.filter_cons]
    · simp [collectErased, hI, ih, List.filter_cons]

theorem eraseAll_eq_diff (W insts : List Nat) : eraseAll W insts = insts.diff W := by
  induction W generalizing insts with
  | nil => simp [eraseAll]
  | cons I rest ih => simp [eraseAll, ih]

/-- What the last two loops of `runOnFunction` do, for a function whose instruction
sequence has no repetition: the instructions that remain are those outside `Alive`. -/
theorem runOnFunction_insts (fuel : Nat) (F : Function) (hnd : F.insts.Nodup)
    (Alive : Finset Nat) (h : computeAlive fuel F = some ⟨Alive, []⟩) :
    ∃ F' changed, runOnFunction fuel F = some (F', changed) ∧
      ∀ I, I ∈ F'.insts ↔ (I ∈ F.insts ∧ I ∉ Alive) := by
  refine ⟨⟨eraseAll (collectErased Alive F.insts ([], F.operands)).1 F.insts,
      F.isDebugOrPseudoInst, F.isSafeToRemove,
      (collectErased Alive F.insts ([], F.operands)).2⟩,
    !(collectErased Alive F.insts ([], F.operands)).1.isEmpty,
    by simp only [runOnFunction, h], fun I => ?_⟩
  simp only [collectErased_fst, eraseAll_eq_diff, List.nil_append]
  rw [hnd.mem_diff_iff]
  constructor
  · rintro ⟨h1, h2⟩
    exact ⟨h1, fun hA => h2 (List.mem_filter.2 ⟨h1, by simpa using hA⟩)⟩
  · rintro ⟨h1, h2⟩
    exact ⟨h1, fun hf => h2 (by simpa using (List.mem_filter.1 hf).2)⟩

/-- C12, evaluated at `exampleF`: of the three instructions `0` (the unused `add`), `1`
(the `mul` that the return uses) and `2` (the `ret`, not safe to remove), the pass computes
the live set `{1, 2}`, erases the live instructions `1` and `2` and keeps the dead
instruction `0`. -/
theorem runOnFunction_erases_live :
    exampleF.isSafeToRemove 2 = false ∧
    ∃ Alive F' changed, computeAlive 6 exampleF = some ⟨Alive, []⟩ ∧
      runOnFunction 6 exampleF = some (F', changed) ∧
      (0 ∉ Alive ∧ 0 ∈ F'.insts) ∧ (2 ∈ Alive ∧ 2 ∉ F'.insts) ∧ F'.insts = [0] :=
  ⟨by decide, _, _, _, rfl, rfl, by decide, by decide, by decide⟩

end DCE

namespace InjectFuncCall

theorem injectAll_fst (fs : List Function) (done : List Function)
    (globals : List GlobalVariable) (b : Bool) :
    (injectAll fs (done, globals, b)).1 = done ++ fs.map visitFunction := by
  induction fs generalizing done globals b with
  | nil => simp [injectAll]
  | cons F rest ih =>
    cases hF : F.blocks with
    | nil => simp [injectAll, hF, ih, visitFunction, Function.isDeclaration]
    | cons entry others => simp [injectAll, hF, ih, visitFunction, Function.isDeclaration]

theorem getOrInsertPrintf_eq (functions : List Function) :
    ∃ extra, getOrInsertPrintf functions = functions ++ extra ∧
      (extra = [] ∨ extra = [⟨"printf", 1, []⟩]) := by
  unfold getOrInsertPrintf
  by_cases h : functions.any (fun F => F.name == "printf") = true
  · exact ⟨[], by simp [h], Or.inl rfl⟩
  · exact ⟨[⟨"printf", 1, []⟩], by simp [h], Or.inr rfl⟩

/-- The first insertion point of a block that does not start with a PHI node or an EH pad
is the start of the block. -/
theorem getFirstInsertionPt_eq_zero (BB : BasicBlock)
    (h : ∀ I, BB.head? = some I → I.isPHI = false ∧ I.isEHPad = false) :
    getFirstInsertionPt BB = 0 := by
  cases BB with
  | nil => simp [getFirstInsertionPt]
  | cons I rest =>
    obtain ⟨h1, h2⟩ := h I rfl
    simp [getFirstInsertionPt, List.takeWhile, h1, h2]

/-- C13 (injection of the call to `printf`). For every module in which every function has
fewer than `2 ^ 32` arguments and no entry block starts with a PHI node or an EH pad (both
hold for every module that LLVM accepts: the number of parameters of a function type is
an `unsigned`, and the entry block has no predecessor), the functions of the module after
`runOnModule` are the functions of the module before, in the same order, followed by
nothing or by the declaration of `printf`; a declaration is unchanged; a definition keeps
its name, its arguments and all its blocks, and its entry block is the old entry block
with one instruction put in front of it, the call of `printf` whose third argument is the
32-bit constant that is the number of arguments of the function. -/
theorem runOnModule_injects (PrintfFormatStr : String) (M : Module)
    (hargs : ∀ F ∈ M.functions, F.argSize < 2 ^ 32)
    (hentry : ∀ F ∈ M.functions, ∀ B ∈ F.blocks.head?, ∀ I ∈ B.head?,
      I.isPHI = false ∧ I.isEHPad = false) :
    ∃ fs extra, (runOnModule PrintfFormatStr M).1.functions = fs ++ extra ∧
      (extra = [] ∨ extra = [⟨"printf", 1, []⟩]) ∧
      List.Forall₂
        (fun F F' => F'.name = F.name ∧ F'.argSize = F.argSize ∧
          (F.blocks = [] → F'.blocks = []) ∧
          (∀ entry rest, F.blocks = entry :: rest →
            F'.blocks =
              (Instruction.call "printf"
                [Value.formatStrPtr, Value.globalStringPtr F.name, Value.int32 F.argSize] ::
                  entry) :: rest))
        M.functions fs := by
  obtain ⟨extra, he, hx⟩ := getOrInsertPrintf_eq M.functions
  refine ⟨M.functions.map visitFunction, extra, ?_, hx, ?_⟩
  · simp only [runOnModule, injectAll_fst, he, List.map_append, List.nil_append]
    rcases hx with rfl | rfl
    · rfl
    · rfl
  · rw [List.forall₂_map_right_iff, List.forall₂_same]
    intro F hF
    cases hb : F.blocks with
    | nil =>
      have : visitFunction F = F := by simp [visitFunction, hb, Function.isDeclaration]
      rw [this]
      exact ⟨rfl, rfl, fun _ => hb, fun _ _ h => by cases h⟩
    | cons entry rest =>
      have h0 := getFirstInsertionPt_eq_zero entry
        (fun I hI => hentry F hF entry (by rw [hb]; rfl) I hI)
      have hmod : F.argSize % 2 ^ 32 = F.argSize := Nat.mod_eq_of_lt (hargs F hF)
      have : visitFunction F =
          ⟨F.name, F.argSize,
            (Instruction.call "printf"
              [Value.formatStrPtr, Value.globalStringPtr F.name, Value.int32 F.argSize] ::
                entry) :: rest⟩ := by
        simp only [visitFunction, Function.isDeclaration, hb, List.isEmpty_cons,
          Bool.false_eq_true, if_false, injectCall, h0, getInt32, hmod, List.take_zero,
          List.drop_zero, List.nil_append]
      rw [this]
      refine ⟨rfl, rfl, fun h => (by cases h), fun e r h => ?_⟩
      cases h
      rfl

/-- Witness of C13 on the module `exampleM`. -/
theorem runOnModule_injects_witness :
    ((∀ F ∈ exampleM.functions, F.argSize < 2 ^ 32) ∧
      (∀ F ∈ exampleM.functions, ∀ B ∈ F.blocks.head?, ∀ I ∈ B.head?,
        I.isPHI = false ∧ I.isEHPad = false)) ∧
    ∃ fs extra, (runOnModule "fmt" exampleM).1.functions = fs ++ extra ∧
      (extra = [] ∨ extra = [⟨"printf", 1, []⟩]) ∧
      List.Forall₂
        (fun F F' => F'.name = F.name ∧ F'.argSize = F.argSize ∧
          (F.blocks = [] → F'.blocks = []) ∧
          (∀ entry rest, F.blocks = entry :: rest →
            F'.blocks =
              (Instruction.call "printf"
                [Value.formatStrPtr, Value.globalStringPtr F.name, Value.int32 F.argSize] ::
                  entry) :: rest))
        exampleM.functions fs :=
  have h1 : ∀ F ∈ exampleM.functions, F.argSize < 2 ^ 32 := by decide
  have h2 : ∀ F ∈ exampleM.functions, ∀ B ∈ F.blocks.head?, ∀ I ∈ B.head?,
      I.isPHI = false ∧ I.isEHPad = false := by decide
  ⟨⟨h1, h2⟩, runOnModule_injects "fmt" exampleM h1 h2⟩

end InjectFuncCall
